import Mathlib

/-!
Verification development for the tick-driven callback scheduler in
`pyglet/clock.py` (class `Clock`).  Time values are modelled as exact
rationals (`ℚ`); the injected time source (`self.time()`) is modelled by
passing the sampled value `now : ℚ` explicitly to each operation that calls
it exactly once (each public operation samples the time source at most once).
Callback functions are opaque and identity-compared, modelled by the type
`Func`; the no-op sentinel `_dummy_schedule_func` is the constructor
`Func.dummy`.  Python objects are reference-identical: interval items carry a
model-level `id` field (allocation order) so that the in-place mutations
performed by `call_scheduled_functions` on items shared between the live list
and the iteration snapshot can be expressed by write-back keyed on `id`.
`args`/`kwargs` are opaque payloads forwarded verbatim; they affect no
control flow and are omitted from the item records.
-/

namespace PygletClock

/-- A callback reference: either the internal no-op sentinel
`_dummy_schedule_func` or an opaque user function (identity-compared). -/
inductive Func where
  | dummy
  | user (n : ℕ)
deriving DecidableEq

/-- `_ScheduledItem`: an every-tick entry (fields `args`/`kwargs` are opaque
payloads, not modelled). -/
structure ScheduledItem where
  func : Func
deriving DecidableEq

/-- `_ScheduledIntervalItem`: a timed entry.  `next_ts = none` models the
Python `None` written into a consumed one-shot.  The `id` field models
Python object identity (needed because `tick` mutates items shared between
the live list and its iteration snapshot). -/
structure ScheduledIntervalItem where
  id : ℕ
  func : Func
  interval : ℚ
  last_ts : ℚ
  next_ts : Option ℚ
deriving DecidableEq

/-- State of a `Clock` instance.  `next_ts` is the clock attribute set once in
`__init__` to `self.time()` (the creation time); `next_id` is the model's
allocator for object identities of interval items. -/
structure Clock where
  next_ts : ℚ
  last_ts : Option ℚ
  times : List ℚ
  cumulative_time : ℚ
  window_size : ℕ
  schedule_items : List ScheduledItem
  schedule_interval_items : List ScheduledIntervalItem
  next_id : ℕ
deriving DecidableEq

/-- `Clock.__init__`: `now` is the sample `self.time()` taken at creation. -/
def Clock.init (now : ℚ) : Clock where
  next_ts := now
  last_ts := none
  times := []
  cumulative_time := 0
  window_size := 0
  schedule_items := []
  schedule_interval_items := []
  next_id := 0

/-- `Clock.update_time`: returns the updated clock and `delta_t`.
`times.insert(0, x)` is cons; `times.pop()` removes and returns the last
element. -/
def Clock.update_time (c : Clock) (now : ℚ) : Clock × ℚ :=
  match c.last_ts with
  | none => ({ c with last_ts := some now }, 0)
  | some lt =>
      let delta_t := now - lt
      let times1 := delta_t :: c.times
      let times2 := if times1.length > c.window_size then times1.dropLast else times1
      let cum1 := if times1.length > c.window_size then
          c.cumulative_time - (times1.getLast?.getD 0) else c.cumulative_time
      ({ c with times := times2, cumulative_time := cum1 + delta_t, last_ts := some now }, delta_t)

/-- Modelled from the spec: `get_interval` is absent from the sources under
`src/` (only the test suite calls it).  Spec section 4.4: "returns the
arithmetic mean of the recent bounded history of `dt` values, or `0` before
any tick has occurred." -/
def Clock.get_interval (c : Clock) : ℚ :=
  if c.times = [] then 0 else c.times.sum / c.times.length

/-- The expression `self.last_ts or self.next_ts` shared by `schedule_once`,
`schedule_interval` and `schedule_interval_soft`: Python `or` falls through
to the creation time both when `last_ts` is `None` and when it is the falsy
float `0`. -/
def Clock.nearestTs (c : Clock) : ℚ :=
  match c.last_ts with
  | none => c.next_ts
  | some v => if v = 0 then c.next_ts else v

/-- Insertion step of `Clock._schedule_item`: insert before the first element
whose `next_ts` is not `None` and exceeds the new item's `next_ts`, else
append. -/
def scheduleItemInsert (nts : ℚ) (item : ScheduledIntervalItem) :
    List ScheduledIntervalItem → List ScheduledIntervalItem
  | [] => [item]
  | other :: rest =>
    match other.next_ts with
    | some o =>
        if nts < o then item :: other :: rest
        else other :: scheduleItemInsert nts item rest
    | none => other :: scheduleItemInsert nts item rest

/-- `Clock._schedule_item`: build the interval item and insert it in sort
order.  The fresh `id` models the identity of the newly created Python
object. -/
def Clock.schedule_item (c : Clock) (func : Func) (last_ts next_ts interval : ℚ) : Clock :=
  let item : ScheduledIntervalItem :=
    { id := c.next_id, func := func, interval := interval,
      last_ts := last_ts, next_ts := some next_ts }
  { c with
    schedule_interval_items := scheduleItemInsert next_ts item c.schedule_interval_items,
    next_id := c.next_id + 1 }

/-- `Clock.schedule`: append an every-tick entry. -/
def Clock.schedule (c : Clock) (func : Func) : Clock :=
  { c with schedule_items := c.schedule_items ++ [{ func := func }] }

/-- `Clock.schedule_once` (`now` is the sample `ts = self.time()`);
`0.2` is `1/5`. -/
def Clock.schedule_once (c : Clock) (func : Func) (delay : ℚ) (now : ℚ) : Clock :=
  let last_ts := c.nearestTs
  let last_ts := if now - last_ts > 1/5 then now else last_ts
  c.schedule_item func last_ts (last_ts + delay) 0

/-- `Clock.schedule_interval` (`now` is the sample `ts = self.time()`). -/
def Clock.schedule_interval (c : Clock) (func : Func) (interval : ℚ) (now : ℚ) : Clock :=
  let last_ts := c.nearestTs
  let last_ts := if now - last_ts > 1/5 then now else last_ts
  c.schedule_item func last_ts (last_ts + interval) interval

/-- The inner helper `taken(ts, e)` of `Clock._get_soft_next_ts`: scan the
(time-sorted) interval items; `None` entries are skipped, an entry within
`e` of `ts` answers `true`, and the scan short-circuits to `false` past
`ts + e`. -/
def taken (items : List ScheduledIntervalItem) (ts e : ℚ) : Bool :=
  match items with
  | [] => false
  | item :: rest =>
    match item.next_ts with
    | none => taken rest ts e
    | some nts =>
      if |nts - ts| ≤ e then true
      else if nts > ts + e then false
      else taken rest ts e

/-- The `for i in range(divs - 1)` probe loop of `_get_soft_next_ts`: starting
from `cur`, step by `dt` up to `count` times, returning the first candidate
not `taken` with tolerance `dt / 4`. -/
def probeFrom (items : List ScheduledIntervalItem) (dt : ℚ) :
    ℕ → ℚ → Option ℚ
  | 0, _ => none
  | count + 1, cur =>
      let cur' := cur + dt
      if taken items cur' (dt / 4) = false then some cur'
      else probeFrom items dt count cur'

/-- The `while True` loop of `_get_soft_next_ts`.  Each call is one loop
iteration: probe `divs - 1` candidates at step `dt`, then halve `dt`, double
`divs`, and return the last candidate once `divs` exceeds 16.  The source
loop terminates through that guard after five iterations
(`divs = 1, 2, 4, 8, 16`); `fuel` is a model artifact whose value is
irrelevant from 5 up (proved below), and `prev` carries the value `next_ts`
holds on entry. -/
def softLoop (items : List ScheduledIntervalItem) (last_ts : ℚ) :
    ℕ → ℚ → ℕ → ℚ → ℚ
  | 0, _, _, prev => prev
  | fuel + 1, dt, divs, _ =>
      match probeFrom items dt (divs - 1) last_ts with
      | some c => c
      | none =>
        let nxt := last_ts + (divs - 1 : ℕ) * dt
        if 16 < divs * 2 then nxt
        else softLoop items last_ts fuel (dt / 2) (divs * 2) nxt

/-- `Clock._get_soft_next_ts`: first candidate is `last_ts + interval` with
tolerance `interval / 4`; on failure enter the binary-subdivision loop. -/
def Clock.get_soft_next_ts (c : Clock) (last_ts interval : ℚ) : ℚ :=
  let next_ts := last_ts + interval
  if taken c.schedule_interval_items next_ts (interval / 4) = false then next_ts
  else softLoop c.schedule_interval_items last_ts 6 interval 1 next_ts

/-- `Clock.schedule_interval_soft` (`now` is the sample `ts = self.time()`). -/
def Clock.schedule_interval_soft (c : Clock) (func : Func) (interval : ℚ) (now : ℚ) : Clock :=
  let last_ts := c.nearestTs
  let last_ts := if now - last_ts > 1/5 then now else last_ts
  let next_ts := c.get_soft_next_ts last_ts interval
  c.schedule_item func (next_ts - interval) next_ts interval

/-- `Clock.unschedule`: neutralize matching entries by swapping in the
`_dummy_schedule_func` sentinel, then drop sentinel entries from both
collections. -/
def Clock.unschedule (c : Clock) (func : Func) : Clock :=
  let si := c.schedule_items.map
    (fun it => if it.func = func then { it with func := Func.dummy } else it)
  let sii := c.schedule_interval_items.map
    (fun it => if it.func = func then { it with func := Func.dummy } else it)
  { c with
    schedule_items := si.filter (fun it => it.func != Func.dummy),
    schedule_interval_items := sii.filter (fun it => it.func != Func.dummy) }

/-- `Clock.get_sleep_time` (`now` is the sample `self.time()`).  The source
reads `self._schedule_interval_items[0].next_ts` unguarded; a `None` head
would raise, but heads are never `None` outside the tick loop (consumed
one-shots are filtered before `call_scheduled_functions` returns), so the
`getD` defaults are never exercised on states the theorems quantify over. -/
def Clock.get_sleep_time (c : Clock) (now : ℚ) : Option ℚ :=
  match c.schedule_items, c.schedule_interval_items with
  | _ :: _, [] => some (max (c.next_ts - now) 0)
  | _ :: _, it :: _ => some (max (min c.next_ts (it.next_ts.getD c.next_ts) - now) 0)
  | [], it :: _ => some (max ((it.next_ts.getD 0) - now) 0)
  | [], [] => none

/-! ## The tick algorithm

`Clock.tick` / `Clock.call_scheduled_functions`.  A scheduled callback may
itself call scheduling methods on the very clock that is firing it; this is
modelled by a `Handler` mapping each callback to the scheduling calls it
performs when invoked.  Within one `tick` the time source is modelled as
frozen at the tick's sample, so mid-tick `self.time()` calls made by those
scheduling methods return the tick's timestamp.  Firings are observed as
`Event`s (`src` is the identity of the interval item that fired, `none` for
every-tick entries); a raised exception is `Except.error ()`. -/

/-- One scheduling call performed by a callback during its own invocation. -/
inductive SchedAction where
  | once (func : Func) (delay : ℚ)
  | interval (func : Func) (ival : ℚ)
  | intervalSoft (func : Func) (ival : ℚ)
  | every (func : Func)

/-- What each callback does to the clock when invoked (empty list: an inert
callback with no scheduling side effects). -/
def Handler : Type := Func → List SchedAction

/-- The handler modelling callbacks with no scheduling side effects. -/
def inertHandler : Handler := fun _ => []

/-- Observation of one callback invocation. -/
structure Event where
  func : Func
  src : Option ℕ
  dt : ℚ
deriving DecidableEq

def Clock.applyAction (c : Clock) (now : ℚ) : SchedAction → Clock
  | .once f d => c.schedule_once f d now
  | .interval f i => c.schedule_interval f i now
  | .intervalSoft f i => c.schedule_interval_soft f i now
  | .every f => c.schedule f

def Clock.applyActions (c : Clock) (now : ℚ) (l : List SchedAction) : Clock :=
  l.foldl (fun s a => s.applyAction now a) c

instance exceptDecEq {ε α : Type} [DecidableEq ε] [DecidableEq α] :
    DecidableEq (Except ε α)
  | .error x, .error y =>
      if h : x = y then isTrue (by rw [h])
      else isFalse (by intro hc; injection hc with h'; exact h h')
  | .error _, .ok _ => isFalse (by intro hc; cases hc)
  | .ok _, .error _ => isFalse (by intro hc; cases hc)
  | .ok x, .ok y =>
      if h : x = y then isTrue (by rw [h])
      else isFalse (by intro hc; injection hc with h'; exact h h')

/-- Accumulator threaded through the loops of `call_scheduled_functions`. -/
structure TickState where
  clock : Clock
  result : Bool
  need_resort : Bool
  events : List Event
deriving DecidableEq

/-- The every-frame loop of `call_scheduled_functions`: iterate over a
snapshot (`list(self._schedule_items)`) of the every-tick entries taken at
loop start; each invocation passes `dt` and may mutate the live clock. -/
def runEveryTickLoop (hd : Handler) (dt now : ℚ) :
    List ScheduledItem → TickState → TickState
  | [], st => st
  | item :: rest, st =>
      runEveryTickLoop hd dt now rest
        { st with
          result := true
          events := st.events ++ [{ func := item.func, src := none, dt := dt }]
          clock := st.clock.applyActions now (hd item.func) }

/-- Write an item back into the live list at its object identity (the model
of an in-place field assignment on a shared Python object). -/
def updateById (items : List ScheduledIntervalItem) (it : ScheduledIntervalItem) :
    List ScheduledIntervalItem :=
  items.map (fun x => if x.id = it.id then it else x)

/-- Look an object up in the live list by identity. -/
def findById (items : List ScheduledIntervalItem) (i : ℕ) :
    Option ScheduledIntervalItem :=
  items.find? (fun x => x.id == i)

/-- Lines 257-276 of `clock.py`: re-arm a just-fired interval entry, writing
each field assignment back into the live queue as it happens (the soft
reschedule's `taken` scan sees the tentative `next_ts` already written). -/
def Clock.serviceRearm (c : Clock) (ts : ℚ) (it : ScheduledIntervalItem) : Clock :=
  let it1 : ScheduledIntervalItem :=
    { it with next_ts := some (it.last_ts + it.interval), last_ts := ts }
  let c1 := { c with schedule_interval_items := updateById c.schedule_interval_items it1 }
  if it.last_ts + it.interval ≤ ts then
    if ts - (it.last_ts + it.interval) < 1/20 then
      let it2 := { it1 with next_ts := some (ts + it.interval) }
      { c1 with schedule_interval_items := updateById c1.schedule_interval_items it2 }
    else
      let nts2 := c1.get_soft_next_ts ts it.interval
      let it2 := { it1 with next_ts := some nts2, last_ts := nts2 - it.interval }
      { c1 with schedule_interval_items := updateById c1.schedule_interval_items it2 }
  else c1

/-- The interval loop of `call_scheduled_functions`: iterate over a snapshot
(by object identity) of the interval entries; break at the first entry not
yet due; fire due entries (`dt = ts - item.last_ts`), apply their scheduling
side effects to the live clock, then re-arm (interval entries) or consume
(one-shots, `next_ts := None`).  Comparing a `None` `next_ts` against `ts`
raises (`Except.error`). -/
def runIntervalLoop (hd : Handler) (ts : ℚ) :
    List ℕ → TickState → Except Unit TickState
  | [], st => .ok st
  | i :: rest, st =>
    match findById st.clock.schedule_interval_items i with
    | none => runIntervalLoop hd ts rest st
    | some it =>
      match it.next_ts with
      | none => .error ()
      | some nts =>
        if ts < nts then .ok st
        else
          let st1 : TickState :=
            { st with
              result := true
              events := st.events ++ [{ func := it.func, src := some it.id, dt := ts - it.last_ts }]
              clock := st.clock.applyActions ts (hd it.func) }
          if it.interval ≠ 0 then
            runIntervalLoop hd ts rest
              { st1 with clock := st1.clock.serviceRearm ts it, need_resort := true }
          else
            let it1 := { it with next_ts := none }
            runIntervalLoop hd ts rest
              { st1 with clock :=
                { st1.clock with
                  schedule_interval_items := updateById st1.clock.schedule_interval_items it1 } }

/-- Stable sort of the interval items by `next_ts`
(`self._schedule_interval_items.sort(key=lambda a: a.next_ts)`; Python's
sort is stable, and the stable sort is unique, here realised as insertion
sort placing each element after existing equal keys). -/
def insertByNext (a : ScheduledIntervalItem) :
    List ScheduledIntervalItem → List ScheduledIntervalItem
  | [] => [a]
  | b :: rest =>
      if b.next_ts.getD 0 ≤ a.next_ts.getD 0 then b :: insertByNext a rest
      else a :: b :: rest

def sortByNext (l : List ScheduledIntervalItem) : List ScheduledIntervalItem :=
  l.foldl (fun acc a => insertByNext a acc) []

/-- End of `call_scheduled_functions`: remove finished one-shots
(`next_ts is None`) from the live queue and, when a re-arm happened, restore
sort order. -/
def finishTick (st : TickState) : Clock × Bool × List Event :=
  let filtered := st.clock.schedule_interval_items.filter (fun it => it.next_ts.isSome)
  let final := if st.need_resort then sortByNext filtered else filtered
  ({ st.clock with schedule_interval_items := final }, st.result, st.events)

/-- `Clock.call_scheduled_functions(dt)`.  `hnow` models what `self.time()`
returns to any mid-tick scheduling call (the tick's frozen timestamp).  The
due-time cursor is `ts = self.last_ts`; when it is `None` and any interval
entry exists, the first loop comparison raises.  The interval snapshot is
taken after the every-frame loop, so interval entries inserted by every-tick
callbacks are part of it. -/
def Clock.call_scheduled_functions (c : Clock) (hd : Handler) (hnow dt : ℚ) :
    Except Unit (Clock × Bool × List Event) :=
  let st1 := runEveryTickLoop hd dt hnow c.schedule_items
    { clock := c, result := false, need_resort := false, events := [] }
  match c.last_ts with
  | none =>
      match st1.clock.schedule_interval_items with
      | [] => .ok (finishTick st1)
      | _ :: _ => .error ()
  | some ts =>
      match runIntervalLoop hd ts (st1.clock.schedule_interval_items.map (·.id)) st1 with
      | .error e => .error e
      | .ok st2 => .ok (finishTick st2)

/-- `Clock.tick(poll)`: `poll=True` raises unconditionally
(`raise Exception('Depreciated')`); otherwise update time and fire scheduled
functions, returning `delta_t` and the observed invocations. -/
def Clock.tick (c : Clock) (hd : Handler) (poll : Bool) (now : ℚ) :
    Except Unit (Clock × ℚ × List Event) :=
  if poll then .error ()
  else
    let p := c.update_time now
    match p.1.call_scheduled_functions hd now p.2 with
    | .error e => .error e
    | .ok (c2, _, evs) => .ok (c2, p.2, evs)

/-- Drive `n` successive ticks at times `(k+1)*step, (k+2)*step, …`,
collecting all events (a fixed-step simulation harness, as in the repository
test suite's `advance_clock`). -/
def runTicksFrom (hd : Handler) (step : ℚ) : ℕ → ℕ → Clock → Except Unit (Clock × List Event)
  | _, 0, c => .ok (c, [])
  | k, n + 1, c =>
    match c.tick hd false ((k + 1 : ℕ) * step) with
    | .error e => .error e
    | .ok (c1, _, evs) =>
      match runTicksFrom hd step (k + 1) n c1 with
      | .error e => .error e
      | .ok (c2, evs2) => .ok (c2, evs ++ evs2)

/-- Number of invocations of the callback `f` in an event list. -/
def countFires (f : Func) (evs : List Event) : ℕ :=
  (evs.filter (fun e => e.func == f)).length

/-- The state after `n` calls of `schedule_interval_soft` with the same
interval `ival`, all performed at the clock's creation time `b` (so every
call is anchored at basis `b`); the `k`-th call registers callback
`Func.user k`. -/
def softStateN (b ival : ℚ) : ℕ → Clock
  | 0 => Clock.init b
  | n + 1 => (softStateN b ival n).schedule_interval_soft (.user n) ival b

/-- The `next_ts` values (in queue order) produced by `softStateN`. -/
def softNextList (b ival : ℚ) (n : ℕ) : List ℚ :=
  ((softStateN b ival n).schedule_interval_items).map (fun it => it.next_ts.getD 0)

/-! ## C8: termination of the phase-distribution loop -/

theorem softLoop_zero (items : List ScheduledIntervalItem) (l dt : ℚ) (divs : ℕ) (prev : ℚ) :
    softLoop items l 0 dt divs prev = prev := rfl

theorem softLoop_succ (items : List ScheduledIntervalItem) (l : ℚ) (fuel : ℕ)
    (dt : ℚ) (divs : ℕ) (prev : ℚ) :
    softLoop items l (fuel + 1) dt divs prev =
      (match probeFrom items dt (divs - 1) l with
       | some c => c
       | none =>
         let nxt := l + (divs - 1 : ℕ) * dt
         if 16 < divs * 2 then nxt
         else softLoop items l fuel (dt / 2) (divs * 2) nxt) := rfl

/-- Closed form of the subdivision loop entered with `divs = 1`: exactly the
levels `divs = 2, 4, 8, 16` are probed, and the loop exits through the
`divs > 16` guard with the last level's final candidate.  Any fuel of at
least 5 is enough, i.e. the loop's own guard terminates it. -/
theorem softLoop_eval (items : List ScheduledIntervalItem) (l dt p : ℚ) (fuel : ℕ) :
    softLoop items l (fuel + 5) dt 1 p =
      (match probeFrom items (dt / 2) 1 l with
       | some c => c
       | none =>
         match probeFrom items (dt / 2 / 2) 3 l with
         | some c => c
         | none =>
           match probeFrom items (dt / 2 / 2 / 2) 7 l with
           | some c => c
           | none =>
             match probeFrom items (dt / 2 / 2 / 2 / 2) 15 l with
             | some c => c
             | none => l + 15 * (dt / 2 / 2 / 2 / 2)) := by
  have e1 : softLoop items l (fuel + 5) dt 1 p =
      softLoop items l (fuel + 4) (dt / 2) 2 (l + (0 : ℕ) * dt) := by
    rw [show fuel + 5 = (fuel + 4) + 1 from rfl, softLoop_succ]
    norm_num [probeFrom]
  rw [e1]
  rw [show fuel + 4 = (fuel + 3) + 1 from rfl, softLoop_succ]
  cases h2 : probeFrom items (dt / 2) 1 l with
  | some c => simp
  | none =>
    simp only [Nat.reduceSub, Nat.reduceMul, Nat.cast_one]
    norm_num
    rw [show fuel + 3 = (fuel + 2) + 1 from rfl, softLoop_succ]
    cases h4 : probeFrom items (dt / 2 / 2) 3 l with
    | some c => simp
    | none =>
      simp only [Nat.reduceSub, Nat.reduceMul, Nat.cast_ofNat]
      norm_num
      rw [show fuel + 2 = (fuel + 1) + 1 from rfl, softLoop_succ]
      cases h8 : probeFrom items (dt / 2 / 2 / 2) 7 l with
      | some c => simp
      | none =>
        simp only [Nat.reduceSub, Nat.reduceMul, Nat.cast_ofNat]
        norm_num
        rw [softLoop_succ]
        cases h16 : probeFrom items (dt / 2 / 2 / 2 / 2) 15 l with
        | some c => simp
        | none => norm_num

/-- C8: the phase-distribution computation terminates for every input state,
basis and interval: the `while True` loop of `_get_soft_next_ts` needs at
most five iterations before its `divs > 16` guard fires (any fuel of at
least 5 gives the same value, so the fuel is not what stops it), and when
every probed candidate is `taken` the function still returns the last
computed candidate `last_ts + 15 * (interval / 16)` — a value, never an
error. -/
theorem claim8_soft_next_ts_terminates :
    (∀ (items : List ScheduledIntervalItem) (l dt p : ℚ) (fuel : ℕ),
        softLoop items l (fuel + 5) dt 1 p = softLoop items l 5 dt 1 p)
    ∧ (∀ (c : Clock) (l ival : ℚ),
        taken c.schedule_interval_items (l + ival) (ival / 4) = true →
        probeFrom c.schedule_interval_items (ival / 2) 1 l = none →
        probeFrom c.schedule_interval_items (ival / 4) 3 l = none →
        probeFrom c.schedule_interval_items (ival / 8) 7 l = none →
        probeFrom c.schedule_interval_items (ival / 16) 15 l = none →
        c.get_soft_next_ts l ival = l + 15 * (ival / 16)) := by
  constructor
  · intro items l dt p fuel
    rw [softLoop_eval, show (5 : ℕ) = 0 + 5 from rfl, softLoop_eval]
  · intro c l ival h0 h1 h2 h3 h4
    have d2 : ival / 2 / 2 = ival / 4 := by ring
    have d3 : ival / 2 / 2 / 2 = ival / 8 := by ring
    have d4 : ival / 2 / 2 / 2 / 2 = ival / 16 := by ring
    unfold Clock.get_soft_next_ts
    simp only [h0, Bool.true_eq_false, if_false]
    rw [show (6 : ℕ) = 1 + 5 from rfl, softLoop_eval, d4, d3, d2, h1, h2, h3, h4]

/-! ## C5: get_sleep_time -/

/-- C5: `get_sleep_time` returns no value when nothing is scheduled; returns
`0` whenever an every-tick entry exists, provided the time samples are
non-decreasing since creation (`c.next_ts ≤ now`); otherwise returns
`max 0 (m - now)` for `m` the smallest `next_ts` of the (sorted) timed
queue; and with only `schedule_once(cb, 3)` scheduled at `t = 0` it returns
`3` before any tick. -/
theorem claim5_get_sleep_time :
    (∀ (c : Clock) (now : ℚ), c.schedule_items = [] → c.schedule_interval_items = [] →
        c.get_sleep_time now = none)
    ∧ (∀ (c : Clock) (now : ℚ), c.schedule_items ≠ [] → c.next_ts ≤ now →
        (∀ it ∈ c.schedule_interval_items, it.next_ts.isSome) →
        c.get_sleep_time now = some 0)
    ∧ (∀ (c : Clock) (now : ℚ), c.schedule_items = [] →
        c.schedule_interval_items.Pairwise
          (fun a b => a.next_ts.getD 0 ≤ b.next_ts.getD 0) →
        ∀ hd tl, c.schedule_interval_items = hd :: tl →
        (∀ it ∈ c.schedule_interval_items, hd.next_ts.getD 0 ≤ it.next_ts.getD 0)
        ∧ c.get_sleep_time now = some (max (hd.next_ts.getD 0 - now) 0))
    ∧ ((Clock.init 0 |>.schedule_once (.user 1) 3 0).get_sleep_time 0 = some 3) := by
  refine ⟨?_, ?_, ?_, by with_unfolding_all decide⟩
  · intro c now h1 h2
    unfold Clock.get_sleep_time
    rw [h1, h2]
  · intro c now h1 h2 _
    unfold Clock.get_sleep_time
    rcases hs : c.schedule_items with _ | ⟨a, l⟩
    · exact absurd hs h1
    rcases hi : c.schedule_interval_items with _ | ⟨b, m⟩
    · simp only []
      congr 1
      have : c.next_ts - now ≤ 0 := by linarith
      simp [max_eq_right this]
    · simp only []
      congr 1
      have hmin : min c.next_ts (b.next_ts.getD c.next_ts) ≤ c.next_ts := min_le_left _ _
      have : min c.next_ts (b.next_ts.getD c.next_ts) - now ≤ 0 := by linarith
      simp [max_eq_right this]
  · intro c now h1 hp hd tl hi
    constructor
    · intro it hit
      rw [hi] at hit hp
      rcases List.mem_cons.mp hit with rfl | hit
      · exact le_refl _
      · exact (List.pairwise_cons.mp hp).1 it hit
    · unfold Clock.get_sleep_time
      rw [h1, hi]

/-! ## C7: basis timestamp for schedule_once / schedule_interval -/

theorem findById_insert_fresh (item : ScheduledIntervalItem) (nts : ℚ) :
    ∀ l : List ScheduledIntervalItem, (∀ it ∈ l, it.id ≠ item.id) →
    findById (scheduleItemInsert nts item l) item.id = some item := by
  intro l
  induction l with
  | nil => intro _; simp [scheduleItemInsert, findById]
  | cons other rest ih =>
    intro hfresh
    have hne : other.id ≠ item.id := hfresh other (by simp)
    have hrest := ih fun it hit => hfresh it (by simp [hit])
    unfold scheduleItemInsert
    rcases h : other.next_ts with _ | o
    · unfold findById at hrest ⊢
      rw [List.find?_cons_of_neg _ (by simpa using hne)]
      exact hrest
    · by_cases hlt : nts < o
      · simp only [if_pos hlt]
        unfold findById
        rw [List.find?_cons_of_pos _ (by simp)]
      · simp only [if_neg hlt]
        unfold findById at hrest ⊢
        rw [List.find?_cons_of_neg _ (by simpa using hne)]
        exact hrest

/-- The basis value the spec describes: the last recorded tick time, or the
creation time before any tick. -/
def specBasisRef (c : Clock) : ℚ :=
  match c.last_ts with
  | none => c.next_ts
  | some v => v

theorem nearestTs_eq_specBasisRef (c : Clock) (h0 : 0 ≤ c.next_ts)
    (hmono : ∀ v, c.last_ts = some v → c.next_ts ≤ v) :
    c.nearestTs = specBasisRef c := by
  unfold Clock.nearestTs specBasisRef
  rcases h : c.last_ts with _ | v
  · rfl
  · by_cases hv : v = 0
    · have := hmono v h
      simp only [if_pos hv]
      subst hv
      linarith
    · simp [hv]

/-- C7: `schedule_once` and `schedule_interval` compute their basis as the
last recorded tick time (creation time before any tick), replaced by the
live current time when it exceeds that basis by more than `0.2`; the new
entry's `next_ts` is `basis + delay` (resp. `basis + interval`).  The
hypotheses are the host time contract (non-negative, non-decreasing
samples) and the freshness of the model's identity allocator.  The last
conjunct is the spec's stall scenario: last tick at `t = 0`,
`schedule_once(cb, 5)` at `t = 10` makes `cb` due at `15`, not `5`. -/
theorem claim7_schedule_basis :
    (∀ (c : Clock) (f : Func) (d now : ℚ),
        0 ≤ c.next_ts →
        (∀ v, c.last_ts = some v → c.next_ts ≤ v) →
        (∀ it ∈ c.schedule_interval_items, it.id ≠ c.next_id) →
        findById (c.schedule_once f d now).schedule_interval_items c.next_id =
          some { id := c.next_id, func := f, interval := 0,
                 last_ts := if now - specBasisRef c > 1/5 then now else specBasisRef c,
                 next_ts := some ((if now - specBasisRef c > 1/5 then now else specBasisRef c) + d) })
    ∧ (∀ (c : Clock) (f : Func) (ival now : ℚ),
        0 ≤ c.next_ts →
        (∀ v, c.last_ts = some v → c.next_ts ≤ v) →
        (∀ it ∈ c.schedule_interval_items, it.id ≠ c.next_id) →
        findById (c.schedule_interval f ival now).schedule_interval_items c.next_id =
          some { id := c.next_id, func := f, interval := ival,
                 last_ts := if now - specBasisRef c > 1/5 then now else specBasisRef c,
                 next_ts := some ((if now - specBasisRef c > 1/5 then now else specBasisRef c) + ival) })
    ∧ ((match (Clock.init 0).tick inertHandler false 0 with
        | .ok (c1, _, _) =>
            findById (c1.schedule_once (.user 1) 5 10).schedule_interval_items 0
        | .error _ => none)
        = some { id := 0, func := .user 1, interval := 0, last_ts := 10, next_ts := some 15 }) := by
  refine ⟨?_, ?_, by with_unfolding_all decide⟩
  · intro c f d now h0 hmono hfresh
    unfold Clock.schedule_once Clock.schedule_item
    rw [nearestTs_eq_specBasisRef c h0 hmono]
    exact findById_insert_fresh _ _ _ hfresh
  · intro c f ival now h0 hmono hfresh
    unfold Clock.schedule_interval Clock.schedule_item
    rw [nearestTs_eq_specBasisRef c h0 hmono]
    exact findById_insert_fresh _ _ _ hfresh

/-- Witness for C8: with sixteen soft entries of interval 1 anchored at 0
every candidate slot is taken, and the seventeenth computation still returns
the last candidate `15/16`. -/
theorem claim8_witness :
    (softStateN 0 1 16).get_soft_next_ts 0 1 = 0 + 15 * (1/16)
    ∧ softLoop [] 0 (2 + 5) 1 1 1 = softLoop [] 0 5 1 1 1 :=
  ⟨claim8_soft_next_ts_terminates.2 (softStateN 0 1 16) 0 1
      (by with_unfolding_all decide) (by with_unfolding_all decide)
      (by with_unfolding_all decide) (by with_unfolding_all decide)
      (by with_unfolding_all decide),
   claim8_soft_next_ts_terminates.1 [] 0 1 1 2⟩

/-- Witness for C5 at concrete inputs: empty clock, clock with one every-tick
entry, clock with one `schedule_once(cb, 3)` at `t = 0`. -/
theorem claim5_witness :
    (Clock.init 0).get_sleep_time 0 = none
    ∧ ((Clock.init 0).schedule (.user 1)).get_sleep_time 0 = some 0
    ∧ ((Clock.init 0).schedule_once (.user 1) 3 0).get_sleep_time 0 = some 3 := by
  have h3 := (claim5_get_sleep_time.2.2.1 ((Clock.init 0).schedule_once (.user 1) 3 0) 0
      (by with_unfolding_all decide) (by with_unfolding_all decide)
      { id := 0, func := .user 1, interval := 0, last_ts := 0, next_ts := some 3 } []
      (by with_unfolding_all decide)).2
  refine ⟨claim5_get_sleep_time.1 _ 0 rfl rfl,
          claim5_get_sleep_time.2.1 _ 0 (by with_unfolding_all decide)
            (by with_unfolding_all decide) (by with_unfolding_all decide), ?_⟩
  rw [h3]
  with_unfolding_all decide

/-- Witness for C7 at a concrete input: fresh clock created at 0,
`schedule_once(cb, 3)` at `t = 0` gives basis 0 and due time 3. -/
theorem claim7_witness :
    findById ((Clock.init 0).schedule_once (.user 1) 3 0).schedule_interval_items 0 =
      some { id := 0, func := .user 1, interval := 0, last_ts := 0, next_ts := some 3 } := by
  have h := claim7_schedule_basis.1 (Clock.init 0) (.user 1) 3 0 (le_refl 0)
    (by intro v hv; cases hv) (by intro it hit; cases hit)
  rw [show (Clock.init 0).next_id = 0 from rfl] at h
  rw [h]
  with_unfolding_all decide

/-! ## C9: the dt history window

`__init__` sets `window_size = 0`, so the `times` history is permanently
empty: each `update_time` inserts the new `dt` and immediately evicts it,
and `cumulative_time` never moves.  Any mean over the "recent history" is
therefore `0` forever, contradicting the nonempty rolling window the spec
describes (and the repository's own `test_get_interval`, which expects the
mean to approach the tick interval). -/
theorem claim9_window_always_empty :
    (∀ (c : Clock) (now : ℚ), c.window_size = 0 → c.times = [] →
        (c.update_time now).1.times = []
        ∧ (c.update_time now).1.cumulative_time = c.cumulative_time
        ∧ (c.update_time now).1.window_size = 0)
    ∧ (let c3 := ((((Clock.init 0).update_time 0).1.update_time 1).1.update_time 2).1
       c3.times = [] ∧ c3.cumulative_time = 0 ∧ c3.get_interval = 0) := by
  constructor
  · intro c now h0 ht
    unfold Clock.update_time
    rcases hl : c.last_ts with _ | lt
    · simp [ht, h0]
    · simp [ht, h0]
  · refine ⟨by with_unfolding_all decide, by with_unfolding_all decide,
            by with_unfolding_all decide⟩

/-- Witness for C9's universally quantified conjunct at a concrete input. -/
theorem claim9_witness :
    ((Clock.init 0).update_time 1).1.times = []
    ∧ ((Clock.init 0).update_time 1).1.cumulative_time = (Clock.init 0).cumulative_time :=
  ⟨(claim9_window_always_empty.1 (Clock.init 0) 1 rfl rfl).1,
   (claim9_window_always_empty.1 (Clock.init 0) 1 rfl rfl).2.1⟩

/-! ## C3: unschedule -/

/-- No entry in either collection carries the internal sentinel callback.
This holds of every state reachable through the public API: the sentinel is
only written, and immediately filtered out again, inside `unschedule`. -/
def NoDummy (c : Clock) : Prop :=
  (∀ it ∈ c.schedule_items, it.func ≠ Func.dummy)
  ∧ (∀ it ∈ c.schedule_interval_items, it.func ≠ Func.dummy)

theorem unschedule_items_eq_filter (f : Func) :
    ∀ l : List ScheduledItem, (∀ it ∈ l, it.func ≠ Func.dummy) →
    ((l.map (fun it => if it.func = f then { it with func := Func.dummy } else it)).filter
        (fun it => it.func != Func.dummy))
      = l.filter (fun it => it.func != f) := by
  intro l
  induction l with
  | nil => intro _; rfl
  | cons a rest ih =>
    intro h
    have ha := h a (by simp)
    have hrest := ih fun it hit => h it (by simp [hit])
    by_cases haf : a.func = f
    · simp [List.filter_cons, haf, hrest]
    · simp [List.filter_cons, haf, ha, hrest]

theorem unschedule_ivals_eq_filter (f : Func) :
    ∀ l : List ScheduledIntervalItem, (∀ it ∈ l, it.func ≠ Func.dummy) →
    ((l.map (fun it => if it.func = f then { it with func := Func.dummy } else it)).filter
        (fun it => it.func != Func.dummy))
      = l.filter (fun it => it.func != f) := by
  intro l
  induction l with
  | nil => intro _; rfl
  | cons a rest ih =>
    intro h
    have ha := h a (by simp)
    have hrest := ih fun it hit => h it (by simp [hit])
    by_cases haf : a.func = f
    · simp [List.filter_cons, haf, hrest]
    · simp [List.filter_cons, haf, ha, hrest]

theorem applyActions_inert (c : Clock) (now : ℚ) (f : Func) :
    c.applyActions now (inertHandler f) = c := rfl

/-- With inert callbacks the every-frame loop leaves the clock untouched and
appends exactly one event per snapshot entry. -/
theorem runEveryTickLoop_inert (dt now : ℚ) :
    ∀ (items : List ScheduledItem) (st : TickState),
    (runEveryTickLoop inertHandler dt now items st).clock = st.clock
    ∧ (runEveryTickLoop inertHandler dt now items st).need_resort = st.need_resort
    ∧ (runEveryTickLoop inertHandler dt now items st).events =
        st.events ++ items.map (fun it => { func := it.func, src := none, dt := dt }) := by
  intro items
  induction items with
  | nil => intro st; simp [runEveryTickLoop]
  | cons a rest ih =>
    intro st
    have h := ih { st with
      result := true
      events := st.events ++ [{ func := a.func, src := none, dt := dt }]
      clock := st.clock.applyActions now (inertHandler a.func) }
    simp only [runEveryTickLoop] at h ⊢
    rw [h.1, h.2.1, h.2.2]
    simp [applyActions_inert]

theorem mem_updateById {l : List ScheduledIntervalItem} {x y : ScheduledIntervalItem}
    (hx : x ∈ updateById l y) : x = y ∨ x ∈ l := by
  unfold updateById at hx
  rcases List.mem_map.mp hx with ⟨z, hz, hzx⟩
  by_cases h : z.id = y.id
  · left; rw [if_pos h] at hzx; exact hzx.symm
  · right; rw [if_neg h] at hzx; exact hzx ▸ hz

theorem serviceRearm_schedule_items (c : Clock) (ts : ℚ) (it : ScheduledIntervalItem) :
    (c.serviceRearm ts it).schedule_items = c.schedule_items := by
  unfold Clock.serviceRearm
  split <;> [skip; rfl]
  split <;> rfl

theorem serviceRearm_funcs {P : Func → Prop} (c : Clock) (ts : ℚ)
    (it : ScheduledIntervalItem)
    (hl : ∀ x ∈ c.schedule_interval_items, P x.func) (hit : P it.func) :
    ∀ x ∈ (c.serviceRearm ts it).schedule_interval_items, P x.func := by
  unfold Clock.serviceRearm
  split
  · split
    · intro x hx
      rcases mem_updateById hx with rfl | hx
      · exact hit
      · rcases mem_updateById hx with rfl | hx
        · exact hit
        · exact hl x hx
    · intro x hx
      rcases mem_updateById hx with rfl | hx
      · exact hit
      · rcases mem_updateById hx with rfl | hx
        · exact hit
        · exact hl x hx
  · intro x hx
    rcases mem_updateById hx with rfl | hx
    · exact hit
    · exact hl x hx

/-- With inert callbacks the interval loop preserves the every-tick list,
keeps every interval item's callback among the original callbacks, and emits
events only for callbacks of items in the live queue. -/
theorem runIntervalLoop_inert_funcs {P : Func → Prop} (ts : ℚ) :
    ∀ (pending : List ℕ) (st : TickState) (r : TickState),
    (∀ it ∈ st.clock.schedule_interval_items, P it.func) →
    (∀ e ∈ st.events, P e.func) →
    runIntervalLoop inertHandler ts pending st = .ok r →
    (∀ e ∈ r.events, P e.func)
    ∧ (∀ it ∈ r.clock.schedule_interval_items, P it.func)
    ∧ r.clock.schedule_items = st.clock.schedule_items := by
  intro pending
  induction pending with
  | nil =>
    intro st r h1 h2 hr
    cases hr
    exact ⟨h2, h1, rfl⟩
  | cons i rest ih =>
    intro st r h1 h2 hr
    unfold runIntervalLoop at hr
    split at hr
    · exact ih st r h1 h2 hr
    · rename_i it hfind
      have hmem : it ∈ st.clock.schedule_interval_items :=
        List.mem_of_find?_eq_some hfind
      have hitf : P it.func := h1 it hmem
      split at hr
      · cases hr
      · rename_i nts hnts
        split at hr
        · cases hr
          exact ⟨h2, h1, rfl⟩
        · split at hr
          · refine (ih _ r ?_ ?_ hr).imp id (fun h => h.imp id ?_)
            · exact serviceRearm_funcs _ ts it
                (by simpa [applyActions_inert] using h1) hitf
            · intro e he
              simp only [applyActions_inert] at he
              rcases List.mem_append.mp he with he | he
              · exact h2 e he
              · simp at he
                rw [he]
                exact hitf
            · intro hs
              rw [hs]
              simp [applyActions_inert, serviceRearm_schedule_items]
          · refine (ih _ r ?_ ?_ hr).imp id (fun h => h.imp id ?_)
            · intro x hx
              simp only [applyActions_inert] at hx
              rcases mem_updateById hx with rfl | hx
              · exact hitf
              · exact h1 x hx
            · intro e he
              simp only [applyActions_inert] at he
              rcases List.mem_append.mp he with he | he
              · exact h2 e he
              · simp at he
                rw [he]
                exact hitf
            · intro hs
              rw [hs]
              simp [applyActions_inert]

theorem mem_insertByNext {x a : ScheduledIntervalItem} :
    ∀ {l : List ScheduledIntervalItem}, x ∈ insertByNext a l → x = a ∨ x ∈ l := by
  intro l
  induction l with
  | nil => intro h; simpa [insertByNext] using h
  | cons b rest ih =>
    intro h
    unfold insertByNext at h
    by_cases hb : b.next_ts.getD 0 ≤ a.next_ts.getD 0
    · rw [if_pos hb] at h
      rcases List.mem_cons.mp h with rfl | h
      · right; simp
      · rcases ih h with rfl | h
        · left; rfl
        · right; simp [h]
    · rw [if_neg hb] at h
      rcases List.mem_cons.mp h with rfl | h
      · left; rfl
      · right; exact h

theorem mem_sortByNext {x : ScheduledIntervalItem} :
    ∀ {l : List ScheduledIntervalItem}, x ∈ sortByNext l → x ∈ l := by
  suffices h : ∀ (l : List ScheduledIntervalItem) (acc : List ScheduledIntervalItem),
      x ∈ l.foldl (fun acc a => insertByNext a acc) acc → x ∈ acc ∨ x ∈ l by
    intro l hx
    rcases h l [] hx with h' | h'
    · cases h'
    · exact h'
  intro l
  induction l with
  | nil => intro acc h; exact Or.inl h
  | cons a rest ih =>
    intro acc h
    rcases ih (insertByNext a acc) h with h' | h'
    · rcases mem_insertByNext h' with rfl | h'
      · right; simp
      · left; exact h'
    · right; simp [h']

theorem update_time_sched (c : Clock) (now : ℚ) :
    (c.update_time now).1.schedule_items = c.schedule_items
    ∧ (c.update_time now).1.schedule_interval_items = c.schedule_interval_items := by
  unfold Clock.update_time
  rcases c.last_ts with _ | lt <;> exact ⟨rfl, rfl⟩

theorem finishTick_events (st : TickState) : (finishTick st).2.2 = st.events := rfl

theorem finishTick_schedule_items (st : TickState) :
    (finishTick st).1.schedule_items = st.clock.schedule_items := rfl

theorem mem_finishTick_ivals {st : TickState} {it : ScheduledIntervalItem}
    (h : it ∈ (finishTick st).1.schedule_interval_items) :
    it ∈ st.clock.schedule_interval_items := by
  simp only [finishTick] at h
  split at h
  · exact (List.mem_filter.mp (mem_sortByNext h)).1
  · exact (List.mem_filter.mp h).1

theorem call_scheduled_no_f (c : Clock) (f : Func) (hnow dt : ℚ)
    (out : Clock × Bool × List Event)
    (hf1 : ∀ it ∈ c.schedule_items, it.func ≠ f)
    (hf2 : ∀ it ∈ c.schedule_interval_items, it.func ≠ f)
    (hr : c.call_scheduled_functions inertHandler hnow dt = .ok out) :
    (∀ e ∈ out.2.2, e.func ≠ f)
    ∧ out.1.schedule_items = c.schedule_items
    ∧ (∀ it ∈ out.1.schedule_interval_items, it.func ≠ f) := by
  simp only [Clock.call_scheduled_functions] at hr
  have hev := runEveryTickLoop_inert dt hnow c.schedule_items
    { clock := c, result := false, need_resort := false, events := [] }
  set st1 := runEveryTickLoop inertHandler dt hnow c.schedule_items
    { clock := c, result := false, need_resort := false, events := [] } with hst1
  have hclock : st1.clock = c := hev.1
  have hevents : ∀ e ∈ st1.events, e.func ≠ f := by
    rw [hev.2.2]
    intro e he
    simp only [List.nil_append] at he
    rcases List.mem_map.mp he with ⟨it, hit, rfl⟩
    exact hf1 it hit
  have hivals : ∀ it ∈ st1.clock.schedule_interval_items, it.func ≠ f := by
    rw [hclock]; exact hf2
  split at hr
  · split at hr
    · cases hr
      refine ⟨fun e he => hevents e (by rwa [finishTick_events] at he),
              by rw [finishTick_schedule_items, hclock], ?_⟩
      intro it hit
      exact hivals it (mem_finishTick_ivals hit)
    · cases hr
  · rename_i ts hts
    split at hr
    · cases hr
    · rename_i st2 hloop
      cases hr
      have hmain := @runIntervalLoop_inert_funcs (fun g => g ≠ f) ts _ st1 st2 hivals hevents hloop
      refine ⟨fun e he => hmain.1 e (by rwa [finishTick_events] at he), ?_, ?_⟩
      · rw [finishTick_schedule_items, hmain.2.2, hclock]
      · intro it hit
        exact hmain.2.1 it (mem_finishTick_ivals hit)

/-- An inert tick from a state holding no entry for callback `f` emits no
invocation of `f` and leaves no entry for `f` behind. -/
theorem tick_no_f (c : Clock) (f : Func) (now : ℚ) (r : Clock × ℚ × List Event)
    (hf1 : ∀ it ∈ c.schedule_items, it.func ≠ f)
    (hf2 : ∀ it ∈ c.schedule_interval_items, it.func ≠ f)
    (hr : c.tick inertHandler false now = .ok r) :
    (∀ e ∈ r.2.2, e.func ≠ f)
    ∧ (∀ it ∈ r.1.schedule_items, it.func ≠ f)
    ∧ (∀ it ∈ r.1.schedule_interval_items, it.func ≠ f) := by
  simp only [Clock.tick, Bool.false_eq_true, if_false] at hr
  obtain ⟨hcs1, hcs2⟩ := update_time_sched c now
  split at hr
  · cases hr
  · rename_i c2 b evs hcall
    cases hr
    have h := call_scheduled_no_f (c.update_time now).1 f now (c.update_time now).2
      (c2, b, evs) (by rw [hcs1]; exact hf1) (by rw [hcs2]; exact hf2) hcall
    refine ⟨h.1, ?_, h.2.2⟩
    intro it hit
    have : it ∈ c.schedule_items := by
      rw [← hcs1, ← h.2.1]; exact hit
    exact hf1 it this

/-- C3: `unschedule(f)` removes every entry whose callback equals `f` from
both the every-tick collection and the timed queue, leaving entries with
other callbacks (and all other clock state) untouched; on a clock where `f`
was never scheduled or is already unscheduled it is the identity (and it is
a total function — no error); and after `unschedule(f)` an inert tick
invokes `f` zero times and leaves no entry for `f` in either collection
(so, inductively, `f` is never invoked again). -/
theorem claim3_unschedule :
    (∀ (c : Clock) (n : ℕ), NoDummy c →
        (c.unschedule (.user n)).schedule_items
          = c.schedule_items.filter (fun it => it.func != .user n)
        ∧ (c.unschedule (.user n)).schedule_interval_items
          = c.schedule_interval_items.filter (fun it => it.func != .user n)
        ∧ (c.unschedule (.user n)).last_ts = c.last_ts
        ∧ (c.unschedule (.user n)).next_ts = c.next_ts
        ∧ (c.unschedule (.user n)).next_id = c.next_id)
    ∧ (∀ (c : Clock) (n : ℕ), NoDummy c →
        (∀ it ∈ c.schedule_items, it.func ≠ .user n) →
        (∀ it ∈ c.schedule_interval_items, it.func ≠ .user n) →
        c.unschedule (.user n) = c)
    ∧ (∀ (c : Clock) (n : ℕ) (now : ℚ) (r : Clock × ℚ × List Event), NoDummy c →
        (c.unschedule (.user n)).tick inertHandler false now = .ok r →
        countFires (.user n) r.2.2 = 0
        ∧ (∀ it ∈ r.1.schedule_items, it.func ≠ .user n)
        ∧ (∀ it ∈ r.1.schedule_interval_items, it.func ≠ .user n)) := by
  have part1 : ∀ (c : Clock) (n : ℕ), NoDummy c →
      (c.unschedule (.user n)).schedule_items
        = c.schedule_items.filter (fun it => it.func != .user n)
      ∧ (c.unschedule (.user n)).schedule_interval_items
        = c.schedule_interval_items.filter (fun it => it.func != .user n)
      ∧ (c.unschedule (.user n)).last_ts = c.last_ts
      ∧ (c.unschedule (.user n)).next_ts = c.next_ts
      ∧ (c.unschedule (.user n)).next_id = c.next_id := by
    intro c n hnd
    refine ⟨?_, ?_, rfl, rfl, rfl⟩
    · simp only [Clock.unschedule]
      exact unschedule_items_eq_filter _ _ hnd.1
    · simp only [Clock.unschedule]
      exact unschedule_ivals_eq_filter _ _ hnd.2
  refine ⟨part1, ?_, ?_⟩
  · intro c n hnd h1 h2
    have e := part1 c n hnd
    have f1 : c.schedule_items.filter (fun it => it.func != .user n) = c.schedule_items :=
      List.filter_eq_self.mpr fun a ha => by simpa using h1 a ha
    have f2 : c.schedule_interval_items.filter (fun it => it.func != .user n)
        = c.schedule_interval_items :=
      List.filter_eq_self.mpr fun a ha => by simpa using h2 a ha
    simp only [Clock.unschedule]
    rw [unschedule_items_eq_filter _ _ hnd.1, unschedule_ivals_eq_filter _ _ hnd.2, f1, f2]
  · intro c n now r hnd hr
    have e := part1 c n hnd
    have h1 : ∀ it ∈ (c.unschedule (.user n)).schedule_items, it.func ≠ .user n := by
      rw [e.1]
      intro it hit
      simpa using (List.mem_filter.mp hit).2
    have h2 : ∀ it ∈ (c.unschedule (.user n)).schedule_interval_items, it.func ≠ .user n := by
      rw [e.2.1]
      intro it hit
      simpa using (List.mem_filter.mp hit).2
    have h := tick_no_f _ _ now r h1 h2 hr
    refine ⟨?_, h.2.1, h.2.2⟩
    unfold countFires
    rw [List.length_eq_zero]
    rw [List.filter_eq_nil_iff]
    intro e' he'
    simpa using h.1 e' he'

/-- Witness for C3 at concrete inputs: `user 1` scheduled across three
methods plus an unrelated `user 2`; after `unschedule (user 1)` only
`user 2` remains, the never-scheduled case is the identity, and a tick
fires `user 1` zero times. -/
theorem claim3_witness :
    ((((Clock.init 0).schedule (.user 1) |>.schedule_once (.user 1) 1 0
        |>.schedule (.user 2)).unschedule (.user 1)).schedule_items
        = ([{ func := .user 2 }] : List ScheduledItem))
    ∧ (((Clock.init 0).schedule (.user 2)).unschedule (.user 1)
        = (Clock.init 0).schedule (.user 2))
    ∧ countFires (.user 1)
        (({ next_ts := 0, last_ts := some 1, times := [], cumulative_time := 0,
            window_size := 0, schedule_items := [{ func := .user 2 }],
            schedule_interval_items := [], next_id := 1 }, (0 : ℚ),
          [{ func := .user 2, src := none, dt := 0 }]) :
            Clock × ℚ × List Event).2.2 = 0 := by
  refine ⟨?_, ?_, ?_⟩
  · rw [(claim3_unschedule.1 _ 1
      ⟨by with_unfolding_all decide, by with_unfolding_all decide⟩).1]
    with_unfolding_all decide
  · exact claim3_unschedule.2.1 _ 1
      ⟨by with_unfolding_all decide, by with_unfolding_all decide⟩
      (by with_unfolding_all decide) (by with_unfolding_all decide)
  · exact (claim3_unschedule.2.2 ((Clock.init 0).schedule (.user 1)
      |>.schedule_once (.user 1) 1 0 |>.schedule (.user 2)) 1 1
      ({ next_ts := 0, last_ts := some 1, times := [], cumulative_time := 0,
         window_size := 0, schedule_items := [{ func := .user 2 }],
         schedule_interval_items := [], next_id := 1 }, (0 : ℚ),
       [{ func := .user 2, src := none, dt := 0 }])
      ⟨by with_unfolding_all decide, by with_unfolding_all decide⟩
      (by with_unfolding_all decide)).1

/-! ## C10: tick(poll=True) raises; tick() returns normally

The structural invariants below hold of every state reachable through the
public API: interval items carry pairwise-distinct identities below the
allocator, and no item in the queue has a `None` `next_ts` between ticks
(consumed one-shots are filtered out before `call_scheduled_functions`
returns). -/

def IdInv (c : Clock) : Prop :=
  (∀ it ∈ c.schedule_interval_items, it.id < c.next_id)
  ∧ (c.schedule_interval_items.map (·.id)).Nodup

def AllSome (c : Clock) : Prop :=
  ∀ it ∈ c.schedule_interval_items, it.next_ts.isSome

theorem scheduleItemInsert_perm (nts : ℚ) (item : ScheduledIntervalItem) :
    ∀ l : List ScheduledIntervalItem, (scheduleItemInsert nts item l).Perm (item :: l) := by
  intro l
  induction l with
  | nil => simp [scheduleItemInsert]
  | cons other rest ih =>
    show (match other.next_ts with
      | some o =>
          if nts < o then item :: other :: rest
          else other :: scheduleItemInsert nts item rest
      | none => other :: scheduleItemInsert nts item rest).Perm (item :: other :: rest)
    split
    · split
      · exact List.Perm.refl _
      · exact (List.Perm.cons other ih).trans (List.Perm.swap item other rest)
    · exact (List.Perm.cons other ih).trans (List.Perm.swap item other rest)

theorem updateById_ids (l : List ScheduledIntervalItem) (y : ScheduledIntervalItem) :
    (updateById l y).map (·.id) = l.map (·.id) := by
  induction l with
  | nil => rfl
  | cons x rest ih =>
    show ((if x.id = y.id then y else x) :: updateById rest y).map (·.id)
        = (x :: rest).map (·.id)
    rw [List.map_cons, List.map_cons, ih]
    by_cases h : x.id = y.id
    · rw [if_pos h, ← h]
    · rw [if_neg h]

theorem findById_updateById_ne (y : ScheduledIntervalItem) (i : ℕ) (h : y.id ≠ i) :
    ∀ l : List ScheduledIntervalItem, findById (updateById l y) i = findById l i := by
  intro l
  induction l with
  | nil => rfl
  | cons x rest ih =>
    show findById ((if x.id = y.id then y else x) :: updateById rest y) i
        = findById (x :: rest) i
    by_cases hx : x.id = y.id
    · rw [if_pos hx]
      unfold findById
      rw [List.find?_cons_of_neg _ (by simpa using h),
          List.find?_cons_of_neg _ (by simp [hx]; simpa using h)]
      exact ih
    · rw [if_neg hx]
      unfold findById
      by_cases hpo : x.id = i
      · rw [List.find?_cons_of_pos _ (by simpa using hpo),
            List.find?_cons_of_pos _ (by simpa using hpo)]
      · rw [List.find?_cons_of_neg _ (by simpa using hpo),
            List.find?_cons_of_neg _ (by simpa using hpo)]
        exact ih

theorem findById_scheduleItemInsert_ne (nts : ℚ) (item : ScheduledIntervalItem) (i : ℕ)
    (h : item.id ≠ i) :
    ∀ l : List ScheduledIntervalItem,
      findById (scheduleItemInsert nts item l) i = findById l i := by
  intro l
  induction l with
  | nil =>
    show findById [item] i = findById [] i
    unfold findById
    rw [List.find?_cons_of_neg _ (by simpa using h)]
  | cons other rest ih =>
    show findById (match other.next_ts with
      | some o =>
          if nts < o then item :: other :: rest
          else other :: scheduleItemInsert nts item rest
      | none => other :: scheduleItemInsert nts item rest) i = findById (other :: rest) i
    have hsame : ∀ tail tail' : List ScheduledIntervalItem,
        findById tail i = findById tail' i →
        findById (other :: tail) i = findById (other :: tail') i := by
      intro tail tail' htail
      unfold findById
      by_cases hpo : other.id = i
      · rw [List.find?_cons_of_pos _ (by simpa using hpo),
            List.find?_cons_of_pos _ (by simpa using hpo)]
      · rw [List.find?_cons_of_neg _ (by simpa using hpo),
            List.find?_cons_of_neg _ (by simpa using hpo)]
        exact htail
    split
    · split
      · show findById (item :: other :: rest) i = findById (other :: rest) i
        unfold findById
        rw [List.find?_cons_of_neg _ (by simpa using h)]
      · exact hsame _ _ ih
    · exact hsame _ _ ih

theorem schedule_item_pres (c : Clock) (f : Func) (lts nts ival : ℚ) (h : IdInv c) :
    IdInv (c.schedule_item f lts nts ival)
    ∧ (c.schedule_item f lts nts ival).next_id = c.next_id + 1
    ∧ (∀ i, i < c.next_id →
        findById (c.schedule_item f lts nts ival).schedule_interval_items i
          = findById c.schedule_interval_items i)
    ∧ (∀ x ∈ (c.schedule_item f lts nts ival).schedule_interval_items,
        x.next_ts.isSome ∨ x ∈ c.schedule_interval_items) := by
  have hperm := scheduleItemInsert_perm nts
    { id := c.next_id, func := f, interval := ival, last_ts := lts, next_ts := some nts }
    c.schedule_interval_items
  refine ⟨⟨?_, ?_⟩, rfl, ?_, ?_⟩
  · intro it hit
    show it.id < c.next_id + 1
    rcases List.mem_cons.mp (hperm.mem_iff.mp hit) with rfl | hit'
    · simp
    · exact Nat.lt_succ_of_lt (h.1 it hit')
  · show ((scheduleItemInsert nts _ c.schedule_interval_items).map (·.id)).Nodup
    rw [List.Perm.nodup_iff (hperm.map (·.id))]
    simp only [List.map_cons, List.nodup_cons]
    refine ⟨?_, h.2⟩
    intro hmem
    rcases List.mem_map.mp hmem with ⟨z, hz, hzid⟩
    have h1 := h.1 z hz
    have h2 : z.id = c.next_id := hzid
    omega
  · intro i hi
    exact findById_scheduleItemInsert_ne nts _ i (by simp; omega) _
  · intro x hx
    rcases List.mem_cons.mp (hperm.mem_iff.mp hx) with rfl | hx'
    · left; rfl
    · right; exact hx'

theorem applyAction_pres (c : Clock) (now : ℚ) (a : SchedAction) (h : IdInv c) :
    IdInv (c.applyAction now a)
    ∧ c.next_id ≤ (c.applyAction now a).next_id
    ∧ (∀ i, i < c.next_id →
        findById (c.applyAction now a).schedule_interval_items i
          = findById c.schedule_interval_items i)
    ∧ (∀ x ∈ (c.applyAction now a).schedule_interval_items,
        x.next_ts.isSome ∨ x ∈ c.schedule_interval_items) := by
  have once_case : ∀ (f : Func) (lts nts ival : ℚ),
      IdInv (c.schedule_item f lts nts ival)
      ∧ c.next_id ≤ (c.schedule_item f lts nts ival).next_id
      ∧ (∀ i, i < c.next_id →
          findById (c.schedule_item f lts nts ival).schedule_interval_items i
            = findById c.schedule_interval_items i)
      ∧ (∀ x ∈ (c.schedule_item f lts nts ival).schedule_interval_items,
          x.next_ts.isSome ∨ x ∈ c.schedule_interval_items) := by
    intro f lts nts ival
    have hp := schedule_item_pres c f lts nts ival h
    exact ⟨hp.1, by rw [hp.2.1]; omega, hp.2.2.1, hp.2.2.2⟩
  cases a with
  | once f d => exact once_case f _ _ 0
  | interval f i => exact once_case f _ _ i
  | intervalSoft f i => exact once_case f _ _ i
  | every f => exact ⟨h, le_refl _, fun _ _ => rfl, fun x hx => Or.inr hx⟩

theorem applyActions_cons (c : Clock) (now : ℚ) (a : SchedAction) (rest : List SchedAction) :
    c.applyActions now (a :: rest) = (c.applyAction now a).applyActions now rest := rfl

theorem applyActions_pres (now : ℚ) :
    ∀ (l : List SchedAction) (c : Clock), IdInv c →
    IdInv (c.applyActions now l)
    ∧ c.next_id ≤ (c.applyActions now l).next_id
    ∧ (∀ i, i < c.next_id →
        findById (c.applyActions now l).schedule_interval_items i
          = findById c.schedule_interval_items i)
    ∧ (∀ x ∈ (c.applyActions now l).schedule_interval_items,
        x.next_ts.isSome ∨ x ∈ c.schedule_interval_items) := by
  intro l
  induction l with
  | nil => intro c h; exact ⟨h, le_refl _, fun _ _ => rfl, fun x hx => Or.inr hx⟩
  | cons a rest ih =>
    intro c h
    have h1 := applyAction_pres c now a h
    have h2 := ih (c.applyAction now a) h1.1
    simp only [applyActions_cons]
    refine ⟨h2.1, le_trans h1.2.1 h2.2.1, ?_, ?_⟩
    · intro i hi
      rw [h2.2.2.1 i (lt_of_lt_of_le hi h1.2.1), h1.2.2.1 i hi]
    · intro x hx
      rcases h2.2.2.2 x hx with hs | hx'
      · exact Or.inl hs
      · rcases h1.2.2.2 x hx' with hs | hx''
        · exact Or.inl hs
        · exact Or.inr hx''

theorem serviceRearm_next_id (c : Clock) (ts : ℚ) (it : ScheduledIntervalItem) :
    (c.serviceRearm ts it).next_id = c.next_id := by
  unfold Clock.serviceRearm
  split
  · split <;> rfl
  · rfl

theorem serviceRearm_ids (c : Clock) (ts : ℚ) (it : ScheduledIntervalItem) :
    (c.serviceRearm ts it).schedule_interval_items.map (·.id)
      = c.schedule_interval_items.map (·.id) := by
  unfold Clock.serviceRearm
  split
  · split <;> simp [updateById_ids]
  · simp [updateById_ids]

theorem serviceRearm_findById_ne (c : Clock) (ts : ℚ) (it : ScheduledIntervalItem)
    (i : ℕ) (h : it.id ≠ i) :
    findById (c.serviceRearm ts it).schedule_interval_items i
      = findById c.schedule_interval_items i := by
  unfold Clock.serviceRearm
  split
  · split
    · exact (findById_updateById_ne _ i (by exact h) _).trans
        (findById_updateById_ne _ i (by exact h) _)
    · exact (findById_updateById_ne _ i (by exact h) _).trans
        (findById_updateById_ne _ i (by exact h) _)
  · exact findById_updateById_ne _ i (by exact h) _

theorem IdInv_of_ids_eq {c c' : Clock}
    (hids : c'.schedule_interval_items.map (·.id) = c.schedule_interval_items.map (·.id))
    (hnid : c'.next_id = c.next_id) (h : IdInv c) : IdInv c' := by
  constructor
  · intro it hit
    have : it.id ∈ c.schedule_interval_items.map (·.id) := by
      rw [← hids]
      exact List.mem_map.mpr ⟨it, hit, rfl⟩
    rcases List.mem_map.mp this with ⟨z, hz, hzid⟩
    rw [hnid, ← hzid]
    exact h.1 z hz
  · rw [hids]
    exact h.2

theorem runEveryTickLoop_pres (hd : Handler) (dt now : ℚ) :
    ∀ (items : List ScheduledItem) (st : TickState), IdInv st.clock →
    IdInv (runEveryTickLoop hd dt now items st).clock
    ∧ st.clock.next_id ≤ (runEveryTickLoop hd dt now items st).clock.next_id
    ∧ (∀ x ∈ (runEveryTickLoop hd dt now items st).clock.schedule_interval_items,
        x.next_ts.isSome ∨ x ∈ st.clock.schedule_interval_items) := by
  intro items
  induction items with
  | nil => intro st h; exact ⟨h, le_refl _, fun x hx => Or.inr hx⟩
  | cons a rest ih =>
    intro st h
    have h1 := applyActions_pres now (hd a.func) st.clock h
    have h2 := ih { st with
      result := true
      events := st.events ++ [{ func := a.func, src := none, dt := dt }]
      clock := st.clock.applyActions now (hd a.func) } h1.1
    refine ⟨h2.1, le_trans h1.2.1 h2.2.1, ?_⟩
    intro x hx
    rcases h2.2.2 x hx with hs | hx'
    · exact Or.inl hs
    · rcases h1.2.2.2 x hx' with hs | hx''
      · exact Or.inl hs
      · exact Or.inr hx''

/-- Step equations for the interval loop (one per control path of the
source loop body). -/
theorem runIntervalLoop_cons_none (hd : Handler) (ts : ℚ) (i : ℕ) (rest : List ℕ)
    (st : TickState) (hfd : findById st.clock.schedule_interval_items i = none) :
    runIntervalLoop hd ts (i :: rest) st = runIntervalLoop hd ts rest st := by
  conv_lhs => unfold runIntervalLoop
  split
  · rfl
  · rename_i it' hfd'
    rw [hfd] at hfd'
    cases hfd'

theorem runIntervalLoop_cons_error (hd : Handler) (ts : ℚ) (i : ℕ) (rest : List ℕ)
    (st : TickState) (it : ScheduledIntervalItem)
    (hfd : findById st.clock.schedule_interval_items i = some it)
    (hnts : it.next_ts = none) :
    runIntervalLoop hd ts (i :: rest) st = .error () := by
  conv_lhs => unfold runIntervalLoop
  split
  · rename_i hfd'
    rw [hfd] at hfd'
    cases hfd'
  · rename_i it' hfd'
    rw [hfd] at hfd'
    injection hfd' with hit
    subst hit
    split
    · rfl
    · rename_i nts' hnts'
      rw [hnts] at hnts'
      cases hnts'

theorem runIntervalLoop_cons_break (hd : Handler) (ts : ℚ) (i : ℕ) (rest : List ℕ)
    (st : TickState) (it : ScheduledIntervalItem) (nts : ℚ)
    (hfd : findById st.clock.schedule_interval_items i = some it)
    (hnts : it.next_ts = some nts) (hdue : ts < nts) :
    runIntervalLoop hd ts (i :: rest) st = .ok st := by
  conv_lhs => unfold runIntervalLoop
  split
  · rename_i hfd'
    rw [hfd] at hfd'
    cases hfd'
  · rename_i it' hfd'
    rw [hfd] at hfd'
    injection hfd' with hit
    subst hit
    split
    · rename_i hnts'
      rw [hnts] at hnts'
      cases hnts'
    · rename_i nts' hnts'
      rw [hnts] at hnts'
      injection hnts' with hn
      subst hn
      rw [if_pos hdue]

/-- The fired state shared by the two due paths: the callback's scheduling
side effects applied to the live clock, plus the recorded invocation. -/
def firedState (hd : Handler) (ts : ℚ) (st : TickState) (it : ScheduledIntervalItem) :
    TickState :=
  { st with
    result := true
    events := st.events ++ [{ func := it.func, src := some it.id, dt := ts - it.last_ts }]
    clock := st.clock.applyActions ts (hd it.func) }

theorem runIntervalLoop_cons_due_interval (hd : Handler) (ts : ℚ) (i : ℕ) (rest : List ℕ)
    (st : TickState) (it : ScheduledIntervalItem) (nts : ℚ)
    (hfd : findById st.clock.schedule_interval_items i = some it)
    (hnts : it.next_ts = some nts) (hdue : ¬ ts < nts) (hival : it.interval ≠ 0) :
    runIntervalLoop hd ts (i :: rest) st =
      runIntervalLoop hd ts rest
        { firedState hd ts st it with
          clock := (firedState hd ts st it).clock.serviceRearm ts it
          need_resort := true } := by
  conv_lhs => unfold runIntervalLoop
  split
  · rename_i hfd'
    rw [hfd] at hfd'
    cases hfd'
  · rename_i it' hfd'
    rw [hfd] at hfd'
    injection hfd' with hit
    subst hit
    split
    · rename_i hnts'
      rw [hnts] at hnts'
      cases hnts'
    · rename_i nts' hnts'
      rw [hnts] at hnts'
      injection hnts' with hn
      subst hn
      rw [if_neg hdue, if_pos hival]
      rfl

theorem runIntervalLoop_cons_due_oneshot (hd : Handler) (ts : ℚ) (i : ℕ) (rest : List ℕ)
    (st : TickState) (it : ScheduledIntervalItem) (nts : ℚ)
    (hfd : findById st.clock.schedule_interval_items i = some it)
    (hnts : it.next_ts = some nts) (hdue : ¬ ts < nts) (hival : ¬ it.interval ≠ 0) :
    runIntervalLoop hd ts (i :: rest) st =
      runIntervalLoop hd ts rest
        { firedState hd ts st it with
          clock :=
            { (firedState hd ts st it).clock with
              schedule_interval_items :=
                updateById (firedState hd ts st it).clock.schedule_interval_items
                  { it with next_ts := none } } } := by
  conv_lhs => unfold runIntervalLoop
  split
  · rename_i hfd'
    rw [hfd] at hfd'
    cases hfd'
  · rename_i it' hfd'
    rw [hfd] at hfd'
    injection hfd' with hit
    subst hit
    split
    · rename_i hnts'
      rw [hnts] at hnts'
      cases hnts'
    · rename_i nts' hnts'
      rw [hnts] at hnts'
      injection hnts' with hn
      subst hn
      rw [if_neg hdue, if_neg hival]
      rfl

/-- The interval loop never raises when the pending identities are distinct,
below the allocator, and every queued item they resolve to still has a
numeric `next_ts`. -/
theorem runIntervalLoop_ok (hd : Handler) (ts : ℚ) :
    ∀ (pending : List ℕ) (st : TickState), pending.Nodup →
    IdInv st.clock →
    (∀ i ∈ pending, i < st.clock.next_id) →
    (∀ i ∈ pending, ∀ it, findById st.clock.schedule_interval_items i = some it →
        it.next_ts.isSome) →
    ∃ st2, runIntervalLoop hd ts pending st = .ok st2 := by
  intro pending
  induction pending with
  | nil => intro st _ _ _ _; exact ⟨st, rfl⟩
  | cons j rest ih =>
    intro st hnodup hinv hlt hfind
    have hjrest : j ∉ rest := (List.nodup_cons.mp hnodup).1
    have hrestnodup : rest.Nodup := (List.nodup_cons.mp hnodup).2
    rcases hfd : findById st.clock.schedule_interval_items j with _ | it
    · rw [runIntervalLoop_cons_none hd ts j rest st hfd]
      exact ih st hrestnodup hinv (fun i hi => hlt i (by simp [hi]))
        (fun i hi => hfind i (by simp [hi]))
    · have hid : it.id = j := by
        have := List.find?_some hfd
        simpa using this
      have hsome : it.next_ts.isSome := hfind j (by simp) it hfd
      rcases hnts : it.next_ts with _ | nts
      · rw [hnts] at hsome; cases hsome
      · by_cases hdue : ts < nts
        · rw [runIntervalLoop_cons_break hd ts j rest st it nts hfd hnts hdue]
          exact ⟨st, rfl⟩
        · have hact := applyActions_pres ts (hd it.func) st.clock hinv
          have hne : ∀ i ∈ rest, it.id ≠ i := by
            intro i hi hji
            rw [hid] at hji
            exact hjrest (hji ▸ hi)
          by_cases hival : it.interval ≠ 0
          · rw [runIntervalLoop_cons_due_interval hd ts j rest st it nts hfd hnts hdue hival]
            apply ih
            · exact hrestnodup
            · exact IdInv_of_ids_eq (serviceRearm_ids _ ts it)
                (serviceRearm_next_id _ ts it) hact.1
            · intro i hi
              show i < ((st.clock.applyActions ts (hd it.func)).serviceRearm ts it).next_id
              rw [serviceRearm_next_id]
              exact lt_of_lt_of_le (hlt i (by simp [hi])) hact.2.1
            · intro i hi it' hit'
              show it'.next_ts.isSome
              have hit2 : findById ((firedState hd ts st it).clock.serviceRearm ts it).schedule_interval_items i
                  = some it' := hit'
              rw [serviceRearm_findById_ne _ ts it i (hne i hi)] at hit2
              have hit3 : findById (st.clock.applyActions ts (hd it.func)).schedule_interval_items i
                  = some it' := hit2
              rw [hact.2.2.1 i (hlt i (by simp [hi]))] at hit3
              exact hfind i (by simp [hi]) it' hit3
          · rw [runIntervalLoop_cons_due_oneshot hd ts j rest st it nts hfd hnts hdue hival]
            apply ih
            · exact hrestnodup
            · exact IdInv_of_ids_eq (updateById_ids _ _) rfl hact.1
            · intro i hi
              exact lt_of_lt_of_le (hlt i (by simp [hi])) hact.2.1
            · intro i hi it' hit'
              show it'.next_ts.isSome
              have hit2 : findById (updateById (st.clock.applyActions ts (hd it.func)).schedule_interval_items
                  { it with next_ts := none }) i = some it' := hit'
              rw [findById_updateById_ne _ i (by exact hne i hi) _] at hit2
              rw [hact.2.2.1 i (hlt i (by simp [hi]))] at hit2
              exact hfind i (by simp [hi]) it' hit2

theorem update_time_fields (c : Clock) (now : ℚ) :
    (c.update_time now).1.next_id = c.next_id
    ∧ (c.update_time now).1.last_ts = some now := by
  unfold Clock.update_time
  rcases c.last_ts with _ | lt <;> exact ⟨rfl, rfl⟩

/-- C10: `tick(poll=True)` raises unconditionally for every clock state and
every callback behavior; `tick()` with the default `poll=False` raises
nothing (returns a normal result) on every state satisfying the reachable
invariants, for every non-raising callback behavior and time sample. -/
theorem claim10_tick_poll :
    (∀ (c : Clock) (hd : Handler) (now : ℚ), c.tick hd true now = .error ())
    ∧ (∀ (c : Clock) (hd : Handler) (now : ℚ), IdInv c → AllSome c →
        ∃ r, c.tick hd false now = .ok r) := by
  constructor
  · intro c hd now
    rfl
  · intro c hd now hinv hsome
    obtain ⟨hcs1, hcs2⟩ := update_time_sched c now
    obtain ⟨hnid, hlast⟩ := update_time_fields c now
    have hinv1 : IdInv (c.update_time now).1 := by
      constructor
      · intro it hit
        rw [hnid]
        exact hinv.1 it (by rwa [hcs2] at hit)
      · rw [hcs2]
        exact hinv.2
    set st0 : TickState :=
      { clock := (c.update_time now).1, result := false, need_resort := false, events := [] }
      with hst0
    have hev := runEveryTickLoop_pres hd (c.update_time now).2 now
      (c.update_time now).1.schedule_items st0 hinv1
    set st1 := runEveryTickLoop hd (c.update_time now).2 now
      (c.update_time now).1.schedule_items st0 with hst1
    have hsome1 : ∀ it ∈ st1.clock.schedule_interval_items, it.next_ts.isSome := by
      intro it hit
      rcases hev.2.2 it hit with hs | hmem
      · exact hs
      · exact hsome it (by rwa [hcs2] at hmem)
    have hok := runIntervalLoop_ok hd now (st1.clock.schedule_interval_items.map (·.id)) st1
      (hev.1.2) (hev.1)
      (fun i hi => by
        rcases List.mem_map.mp hi with ⟨z, hz, rfl⟩
        exact hev.1.1 z hz)
      (fun i hi it' hit' => hsome1 it' (List.mem_of_find?_eq_some hit'))
    rcases hok with ⟨st2, hst2⟩
    have hcall : (c.update_time now).1.call_scheduled_functions hd now (c.update_time now).2
        = .ok (finishTick st2) := by
      show (match (c.update_time now).1.last_ts with
        | none =>
          match st1.clock.schedule_interval_items with
          | [] => Except.ok (finishTick st1)
          | _ :: _ => Except.error ()
        | some ts =>
          match runIntervalLoop hd ts (st1.clock.schedule_interval_items.map (·.id)) st1 with
          | .error e => Except.error e
          | .ok stf => Except.ok (finishTick stf)) = Except.ok (finishTick st2)
      rw [hlast]
      show (match runIntervalLoop hd now (st1.clock.schedule_interval_items.map (·.id)) st1 with
        | .error e => Except.error e
        | .ok stf => Except.ok (finishTick stf)) = Except.ok (finishTick st2)
      rw [hst2]
    refine ⟨((finishTick st2).1, (c.update_time now).2, (finishTick st2).2.2), ?_⟩
    show (if false = true then Except.error () else
      match (c.update_time now).1.call_scheduled_functions hd now (c.update_time now).2 with
      | .error e => Except.error e
      | .ok (c2, _, evs) => Except.ok (c2, (c.update_time now).2, evs)) = _
    rw [if_neg (by simp), hcall]

/-- Witness for C10 at concrete inputs. -/
theorem claim10_witness :
    (Clock.init 0).tick inertHandler true 1 = .error ()
    ∧ ∃ r, ((Clock.init 0).schedule_once (.user 1) 1 0).tick inertHandler false 1 = .ok r :=
  ⟨claim10_tick_poll.1 (Clock.init 0) inertHandler 1,
   claim10_tick_poll.2 ((Clock.init 0).schedule_once (.user 1) 1 0) inertHandler 1
     ⟨by with_unfolding_all decide, by with_unfolding_all decide⟩
     (by unfold AllSome; with_unfolding_all decide)⟩

/-! ## C6: re-arming a due interval entry -/

theorem updateById_updateById_same (y1 y2 : ScheduledIntervalItem) (h : y1.id = y2.id) :
    ∀ l : List ScheduledIntervalItem,
      updateById (updateById l y1) y2 = updateById l y2 := by
  intro l
  induction l with
  | nil => rfl
  | cons x rest ih =>
    show (if (if x.id = y1.id then y1 else x).id = y2.id then y2
          else (if x.id = y1.id then y1 else x)) :: updateById (updateById rest y1) y2
        = (if x.id = y2.id then y2 else x) :: updateById rest y2
    rw [ih]
    by_cases hx : x.id = y1.id
    · simp [hx, h]
    · simp [hx]

theorem findById_updateById_self (y : ScheduledIntervalItem) :
    ∀ l : List ScheduledIntervalItem, (∃ x ∈ l, x.id = y.id) →
      findById (updateById l y) y.id = some y := by
  intro l
  induction l with
  | nil => rintro ⟨x, hx, _⟩; cases hx
  | cons a rest ih =>
    rintro ⟨x, hx, hxid⟩
    show findById ((if a.id = y.id then y else a) :: updateById rest y) y.id = some y
    by_cases ha : a.id = y.id
    · rw [if_pos ha]
      unfold findById
      rw [List.find?_cons_of_pos _ (by simp)]
    · rw [if_neg ha]
      unfold findById
      rw [List.find?_cons_of_neg _ (by simpa using ha)]
      apply ih
      rcases List.mem_cons.mp hx with rfl | hx'
      · exact absurd hxid ha
      · exact ⟨x, hx', hxid⟩

/-- The live queue at the moment the big-overshoot soft reschedule runs: the
tentative `next_ts` and `last_ts = ts` have already been written into the
fired entry. -/
def tentWrittenClock (c : Clock) (ts : ℚ) (it : ScheduledIntervalItem) : Clock :=
  { c with schedule_interval_items :=
      (updateById c.schedule_interval_items
        { it with next_ts := some (it.last_ts + it.interval), last_ts := ts }) }

/-- The phase-distribution timestamp the big-overshoot path assigns: the
soft algorithm anchored at the servicing time `ts` over the live queue. -/
def rearmSoftTs (c : Clock) (ts : ℚ) (it : ScheduledIntervalItem) : ℚ :=
  (tentWrittenClock c ts it).get_soft_next_ts ts it.interval

/-- The three re-arm outcomes of `serviceRearm` (lines 257-276), stated as
exact queue transformations. -/
theorem serviceRearm_cases (c : Clock) (ts : ℚ) (it : ScheduledIntervalItem) :
    (ts < it.last_ts + it.interval →
      (c.serviceRearm ts it).schedule_interval_items
        = updateById c.schedule_interval_items
            { it with next_ts := some (it.last_ts + it.interval), last_ts := ts })
    ∧ (it.last_ts + it.interval ≤ ts → ts - (it.last_ts + it.interval) < 1/20 →
      (c.serviceRearm ts it).schedule_interval_items
        = updateById c.schedule_interval_items
            { it with next_ts := some (ts + it.interval), last_ts := ts })
    ∧ (it.last_ts + it.interval ≤ ts → ¬ ts - (it.last_ts + it.interval) < 1/20 →
      (c.serviceRearm ts it).schedule_interval_items
        = updateById (tentWrittenClock c ts it).schedule_interval_items
            { it with next_ts := some (rearmSoftTs c ts it),
                      last_ts := rearmSoftTs c ts it - it.interval }) := by
  refine ⟨?_, ?_, ?_⟩
  · intro h
    simp only [Clock.serviceRearm]
    rw [if_neg (by linarith)]
  · intro h1 h2
    simp only [Clock.serviceRearm]
    rw [if_pos h1, if_pos h2]
    show updateById
        (updateById c.schedule_interval_items
          { it with next_ts := some (it.last_ts + it.interval), last_ts := ts })
        { it with next_ts := some (ts + it.interval), last_ts := ts }
      = updateById c.schedule_interval_items
          { it with next_ts := some (ts + it.interval), last_ts := ts }
    exact updateById_updateById_same _ _ (by rfl) _
  · intro h1 h2
    simp only [Clock.serviceRearm]
    rw [if_pos h1, if_neg h2]
    rfl

/-- Writes performed by the interval loop land only on pending identities:
an entry whose identity is not pending is left exactly in place (inert
callbacks). -/
theorem runIntervalLoop_inert_preserves_findById (ts : ℚ) :
    ∀ (pending : List ℕ) (st st2 : TickState) (j : ℕ) (x : ScheduledIntervalItem),
    j ∉ pending →
    runIntervalLoop inertHandler ts pending st = .ok st2 →
    findById st.clock.schedule_interval_items j = some x →
    findById st2.clock.schedule_interval_items j = some x := by
  intro pending
  induction pending with
  | nil =>
    intro st st2 j x _ hr hx
    cases hr
    exact hx
  | cons i rest ih =>
    intro st st2 j x hj hr hx
    have hij : i ≠ j := fun h => hj (by simp [h])
    have hjrest : j ∉ rest := fun h => hj (by simp [h])
    rcases hfd : findById st.clock.schedule_interval_items i with _ | it
    · rw [runIntervalLoop_cons_none inertHandler ts i rest st hfd] at hr
      exact ih st st2 j x hjrest hr hx
    · have hitid : it.id = i := by simpa using List.find?_some hfd
      rcases hnts : it.next_ts with _ | nts
      · rw [runIntervalLoop_cons_error inertHandler ts i rest st it hfd hnts] at hr
        cases hr
      · by_cases hdue : ts < nts
        · rw [runIntervalLoop_cons_break inertHandler ts i rest st it nts hfd hnts hdue] at hr
          cases hr
          exact hx
        · by_cases hival : it.interval ≠ 0
          · rw [runIntervalLoop_cons_due_interval inertHandler ts i rest st it nts
              hfd hnts hdue hival] at hr
            refine ih _ st2 j x hjrest hr ?_
            have e1 : findById ((firedState inertHandler ts st it).clock.serviceRearm ts it).schedule_interval_items j
                = findById (firedState inertHandler ts st it).clock.schedule_interval_items j :=
              serviceRearm_findById_ne _ ts it j (by rw [hitid]; exact hij)
            rw [e1]
            show findById (st.clock.applyActions ts (inertHandler it.func)).schedule_interval_items j = some x
            rw [applyActions_inert]
            exact hx
          · rw [runIntervalLoop_cons_due_oneshot inertHandler ts i rest st it nts
              hfd hnts hdue hival] at hr
            refine ih _ st2 j x hjrest hr ?_
            have e1 : findById (updateById (st.clock.applyActions ts (inertHandler it.func)).schedule_interval_items { it with next_ts := none }) j
                = findById (st.clock.applyActions ts (inertHandler it.func)).schedule_interval_items j :=
              findById_updateById_ne _ j
                (by intro hh; exact hij (hitid.symm.trans (hh : it.id = j))) _
            show findById (updateById (st.clock.applyActions ts (inertHandler it.func)).schedule_interval_items { it with next_ts := none }) j = some x
            rw [e1, applyActions_inert]
            exact hx

theorem mem_insertByNext_self (a : ScheduledIntervalItem) :
    ∀ l : List ScheduledIntervalItem, a ∈ insertByNext a l := by
  intro l
  induction l with
  | nil => simp [insertByNext]
  | cons b rest ih =>
    unfold insertByNext
    by_cases hb : b.next_ts.getD 0 ≤ a.next_ts.getD 0
    · rw [if_pos hb]
      exact List.mem_cons_of_mem b ih
    · rw [if_neg hb]
      simp

theorem mem_insertByNext_of_mem {x a : ScheduledIntervalItem} :
    ∀ {l : List ScheduledIntervalItem}, x ∈ l → x ∈ insertByNext a l := by
  intro l
  induction l with
  | nil => intro h; cases h
  | cons b rest ih =>
    intro h
    unfold insertByNext
    by_cases hb : b.next_ts.getD 0 ≤ a.next_ts.getD 0
    · rw [if_pos hb]
      rcases List.mem_cons.mp h with rfl | h'
      · simp
      · exact List.mem_cons_of_mem b (ih h')
    · rw [if_neg hb]
      exact List.mem_cons_of_mem a h

theorem mem_sortByNext_of_mem {x : ScheduledIntervalItem} :
    ∀ {l : List ScheduledIntervalItem}, x ∈ l → x ∈ sortByNext l := by
  suffices h : ∀ (l acc : List ScheduledIntervalItem), x ∈ acc ∨ x ∈ l →
      x ∈ l.foldl (fun acc a => insertByNext a acc) acc by
    intro l hx
    exact h l [] (Or.inr hx)
  intro l
  induction l with
  | nil =>
    intro acc h
    rcases h with h | h
    · exact h
    · cases h
  | cons a rest ih =>
    intro acc h
    apply ih
    rcases h with h | h
    · exact Or.inl (mem_insertByNext_of_mem h)
    · rcases List.mem_cons.mp h with rfl | h'
      · exact Or.inl (mem_insertByNext_self x acc)
      · exact Or.inr h'

theorem exists_id_updateById {l : List ScheduledIntervalItem} {i : ℕ}
    (y : ScheduledIntervalItem) (hex : ∃ x ∈ l, x.id = i) :
    ∃ x ∈ updateById l y, x.id = i := by
  rcases hex with ⟨x, hx, hxid⟩
  by_cases h : x.id = y.id
  · refine ⟨y, ?_, by rw [← h]; exact hxid⟩
    unfold updateById
    exact List.mem_map.mpr ⟨x, hx, by rw [if_pos h]⟩
  · refine ⟨x, ?_, hxid⟩
    unfold updateById
    exact List.mem_map.mpr ⟨x, hx, by rw [if_neg h]⟩

/-- Whatever the overshoot case, `serviceRearm` leaves an entry with the
serviced identity and a numeric `next_ts` in the queue. -/
theorem serviceRearm_keeps_entry (c : Clock) (ts : ℚ) (it : ScheduledIntervalItem)
    (hex : ∃ x ∈ c.schedule_interval_items, x.id = it.id) :
    ∃ it2, findById (c.serviceRearm ts it).schedule_interval_items it.id = some it2
      ∧ it2.id = it.id ∧ it2.next_ts.isSome := by
  have hcases := serviceRearm_cases c ts it
  by_cases h1 : ts < it.last_ts + it.interval
  · rw [hcases.1 h1]
    exact ⟨_, findById_updateById_self _ _ hex, rfl, rfl⟩
  · have h1' : it.last_ts + it.interval ≤ ts := not_lt.mp h1
    by_cases h2 : ts - (it.last_ts + it.interval) < 1/20
    · rw [hcases.2.1 h1' h2]
      exact ⟨_, findById_updateById_self _ _ hex, rfl, rfl⟩
    · rw [hcases.2.2 h1' h2]
      refine ⟨_, findById_updateById_self _ _ ?_, rfl, rfl⟩
      exact exists_id_updateById _ hex

theorem mem_finishTick_of_mem {st : TickState} {x : ScheduledIntervalItem}
    (hmem : x ∈ st.clock.schedule_interval_items) (hsome : x.next_ts.isSome) :
    x ∈ (finishTick st).1.schedule_interval_items := by
  simp only [finishTick]
  split
  · exact mem_sortByNext_of_mem (List.mem_filter.mpr ⟨hmem, hsome⟩)
  · exact List.mem_filter.mpr ⟨hmem, hsome⟩

/-- C6: when `tick()` services a due interval entry (`interval > 0`) at time
`T`, the re-arm writes are exactly: tentative `next_ts = last_ts + interval`
with `last_ts = T`; if the tentative time is already due and the overshoot
is under `0.05` s, `next_ts` becomes `T + interval`; if the overshoot is
`0.05` s or more, `next_ts` is recomputed by the phase-distribution
algorithm anchored at `T` (over the live queue, tentative write included)
and `last_ts` becomes that value minus the interval.  In every case the
re-armed entry (same identity, numeric `next_ts`) is still in the timed
queue when `call_scheduled_functions` finishes. -/
theorem claim6_rearm_rules :
    (∀ (c : Clock) (ts : ℚ) (it : ScheduledIntervalItem), 0 < it.interval →
      (ts < it.last_ts + it.interval →
        (c.serviceRearm ts it).schedule_interval_items
          = updateById c.schedule_interval_items
              { it with next_ts := some (it.last_ts + it.interval), last_ts := ts })
      ∧ (it.last_ts + it.interval ≤ ts → ts - (it.last_ts + it.interval) < 1/20 →
        (c.serviceRearm ts it).schedule_interval_items
          = updateById c.schedule_interval_items
              { it with next_ts := some (ts + it.interval), last_ts := ts })
      ∧ (it.last_ts + it.interval ≤ ts → ¬ ts - (it.last_ts + it.interval) < 1/20 →
        (c.serviceRearm ts it).schedule_interval_items
          = updateById (tentWrittenClock c ts it).schedule_interval_items
              { it with next_ts := some (rearmSoftTs c ts it),
                        last_ts := rearmSoftTs c ts it - it.interval }))
    ∧ (∀ (ts : ℚ) (st st2 : TickState) (j : ℕ) (rest : List ℕ)
        (it : ScheduledIntervalItem) (nts : ℚ),
        findById st.clock.schedule_interval_items j = some it →
        it.next_ts = some nts → nts ≤ ts → 0 < it.interval →
        j ∉ rest →
        runIntervalLoop inertHandler ts (j :: rest) st = .ok st2 →
        ∃ it', it' ∈ (finishTick st2).1.schedule_interval_items
          ∧ it'.id = it.id ∧ it'.next_ts.isSome) := by
  constructor
  · intro c ts it _
    exact serviceRearm_cases c ts it
  · intro ts st st2 j rest it nts hfd hnts hdue0 hival0 hjrest hr
    have hdue : ¬ ts < nts := not_lt.mpr hdue0
    have hival : it.interval ≠ 0 := ne_of_gt hival0
    have hitid : it.id = j := by simpa using List.find?_some hfd
    rw [runIntervalLoop_cons_due_interval inertHandler ts j rest st it nts
      hfd hnts hdue hival] at hr
    have hex : ∃ x ∈ (st.clock.applyActions ts (inertHandler it.func)).schedule_interval_items,
        x.id = it.id := by
      rw [applyActions_inert]
      exact ⟨it, List.mem_of_find?_eq_some hfd, rfl⟩
    obtain ⟨it2, hfind2, hid2, hsome2⟩ :=
      serviceRearm_keeps_entry (st.clock.applyActions ts (inertHandler it.func)) ts it hex
    have hfind2' : findById ({ firedState inertHandler ts st it with
        clock := (firedState inertHandler ts st it).clock.serviceRearm ts it
        need_resort := true } : TickState).clock.schedule_interval_items it.id
        = some it2 := hfind2
    have hnotin : it.id ∉ rest := by rw [hitid]; exact hjrest
    have hfind3 := runIntervalLoop_inert_preserves_findById ts rest _ st2 it.id it2
      hnotin hr hfind2'
    exact ⟨it2, mem_finishTick_of_mem (List.mem_of_find?_eq_some hfind3) hsome2, hid2, hsome2⟩

/-- Witness for C6: one interval-1 entry serviced exactly on time at
`ts = 1` (zero overshoot: the small-overshoot rule re-arms it at `2`), and
the re-armed entry survives the end-of-tick filter. -/
theorem claim6_witness :
    (({ next_ts := 0, last_ts := none, times := [], cumulative_time := 0, window_size := 0,
        schedule_items := [], next_id := 1,
        schedule_interval_items :=
          [{ id := 0, func := .user 1, interval := 1, last_ts := 0, next_ts := some 1 }] } :
          Clock).serviceRearm 1
        { id := 0, func := .user 1, interval := 1, last_ts := 0, next_ts := some 1 }).schedule_interval_items
      = [{ id := 0, func := .user 1, interval := 1, last_ts := 1, next_ts := some 2 }]
    ∧ ∃ it', it' ∈ (finishTick
        { clock :=
            { next_ts := 0, last_ts := none, times := [], cumulative_time := 0,
              window_size := 0, schedule_items := [], next_id := 1,
              schedule_interval_items :=
                [{ id := 0, func := .user 1, interval := 1, last_ts := 1, next_ts := some 2 }] },
          result := true,
          need_resort := true,
          events := [{ func := .user 1, src := some 0, dt := 1 }] }).1.schedule_interval_items
      ∧ it'.id = 0
      ∧ it'.next_ts.isSome := by
  constructor
  · rw [((claim6_rearm_rules.1 _ 1 _ (by with_unfolding_all decide)).2.1
      (by with_unfolding_all decide) (by with_unfolding_all decide))]
    with_unfolding_all decide
  · exact claim6_rearm_rules.2 1
      { clock :=
          { next_ts := 0, last_ts := none, times := [], cumulative_time := 0,
            window_size := 0, schedule_items := [], next_id := 1,
            schedule_interval_items :=
              [{ id := 0, func := .user 1, interval := 1, last_ts := 0, next_ts := some 1 }] },
        result := false,
        need_resort := false,
        events := [] }
      { clock :=
          { next_ts := 0, last_ts := none, times := [], cumulative_time := 0,
            window_size := 0, schedule_items := [], next_id := 1,
            schedule_interval_items :=
              [{ id := 0, func := .user 1, interval := 1, last_ts := 1, next_ts := some 2 }] },
        result := true,
        need_resort := true,
        events := [{ func := .user 1, src := some 0, dt := 1 }] }
      0 []
      { id := 0, func := .user 1, interval := 1, last_ts := 0, next_ts := some 1 } 1
      (by with_unfolding_all decide) (by with_unfolding_all decide)
      (by with_unfolding_all decide) (by with_unfolding_all decide)
      (by with_unfolding_all decide) (by with_unfolding_all decide)

/-! ## C1: mid-tick scheduling and same-tick eligibility -/

/-- The every-frame loop's invocations are exactly one per entry of the
snapshot taken at loop start, whatever the callbacks do to the clock. -/
theorem runEveryTickLoop_events (hd : Handler) (dt now : ℚ) :
    ∀ (items : List ScheduledItem) (st : TickState),
    (runEveryTickLoop hd dt now items st).events
      = st.events ++ items.map (fun it => { func := it.func, src := none, dt := dt }) := by
  intro items
  induction items with
  | nil => intro st; simp [runEveryTickLoop]
  | cons a rest ih =>
    intro st
    show (runEveryTickLoop hd dt now rest _).events = _
    rw [ih]
    simp

/-- Interval-loop invocations only come from the pending identity snapshot:
an entry inserted into the live queue during the loop is never fired by that
loop. -/
theorem runIntervalLoop_events_src (hd : Handler) (ts : ℚ) :
    ∀ (pending : List ℕ) (st st2 : TickState),
    runIntervalLoop hd ts pending st = .ok st2 →
    ∀ e ∈ st2.events, e ∈ st.events ∨ ∃ i ∈ pending, e.src = some i := by
  intro pending
  induction pending with
  | nil =>
    intro st st2 hr e he
    cases hr
    exact Or.inl he
  | cons i rest ih =>
    intro st st2 hr e he
    rcases hfd : findById st.clock.schedule_interval_items i with _ | it
    · rw [runIntervalLoop_cons_none hd ts i rest st hfd] at hr
      rcases ih st st2 hr e he with h | ⟨i', hi', hsrc⟩
      · exact Or.inl h
      · exact Or.inr ⟨i', by simp [hi'], hsrc⟩
    · have hitid : it.id = i := by simpa using List.find?_some hfd
      rcases hnts : it.next_ts with _ | nts
      · rw [runIntervalLoop_cons_error hd ts i rest st it hfd hnts] at hr
        cases hr
      · by_cases hdue : ts < nts
        · rw [runIntervalLoop_cons_break hd ts i rest st it nts hfd hnts hdue] at hr
          cases hr
          exact Or.inl he
        · have hfired : ∀ e' ∈ (firedState hd ts st it).events,
              e' ∈ st.events ∨ ∃ i' ∈ i :: rest, e'.src = some i' := by
            intro e' he'
            rcases List.mem_append.mp he' with h | h
            · exact Or.inl h
            · simp only [List.mem_singleton] at h
              refine Or.inr ⟨i, by simp, ?_⟩
              rw [h, ← hitid]
          by_cases hival : it.interval ≠ 0
          · rw [runIntervalLoop_cons_due_interval hd ts i rest st it nts
              hfd hnts hdue hival] at hr
            rcases ih _ st2 hr e he with h | ⟨i', hi', hsrc⟩
            · exact hfired e h
            · exact Or.inr ⟨i', by simp [hi'], hsrc⟩
          · rw [runIntervalLoop_cons_due_oneshot hd ts i rest st it nts
              hfd hnts hdue hival] at hr
            rcases ih _ st2 hr e he with h | ⟨i', hi', hsrc⟩
            · exact hfired e h
            · exact Or.inr ⟨i', by simp [hi'], hsrc⟩

/-- The result of a non-polling tick, as an `Option` (for stating concrete
scenario facts as decidable equalities). -/
def tickView (c : Clock) (hd : Handler) (now : ℚ) : Option (Clock × ℚ × List Event) :=
  match c.tick hd false now with
  | .ok r => some r
  | .error _ => none

/-- C1 counterexample input: a due one-shot for `user 1` whose callback
schedules a due one-shot for `user 2` mid-tick. -/
def cascadeHandler : Handler :=
  fun f => if f = .user 1 then [.once (.user 2) 0] else []

/-- The tick of the counterexample scenario: clock created at 0,
`schedule_once(user 1, 1)`, ticked at `T = 1` with the cascading callback. -/
def cascadeTick : Option (Clock × ℚ × List Event) :=
  tickView ((Clock.init 0).schedule_once (.user 1) 1 0) cascadeHandler 1

/-- C1 (as stated) is false: at `T = 1`, `user 1`'s callback schedules a
one-shot for `user 2` with `next_ts = 1 ≤ T`, yet `user 2` is not invoked
within that same `tick()` call — exactly one entry for `user 2` with
`next_ts = 1` is left pending in the queue instead. -/
theorem claim1_counterexample :
    (cascadeTick.map fun r => countFires (.user 1) r.2.2) = some 1
    ∧ (cascadeTick.map fun r => countFires (.user 2) r.2.2) = some 0
    ∧ (cascadeTick.map fun r =>
        (r.1.schedule_interval_items.filter
          (fun it => it.func == Func.user 2 && it.next_ts == some (1 : ℚ))).length) = some 1 := by
  refine ⟨by with_unfolding_all decide, by with_unfolding_all decide,
    by with_unfolding_all decide⟩

/-- C1 amended: invocations performed by one `tick()` come only from the
snapshots — the every-frame loop fires exactly the every-tick entries
present at its start, and the timed loop fires only identities in the
pending snapshot taken when it begins (so a timed entry inserted by a
*timed* callback never fires in the same tick, however early its
`next_ts`, and first becomes eligible on the next tick); a timed entry
inserted by an *every-tick* callback is part of that snapshot and does
fire in the same tick when due; a new every-tick entry first fires on the
next tick. -/
theorem claim1_snapshot_firing :
    (∀ (hd : Handler) (dt now : ℚ) (items : List ScheduledItem) (st : TickState),
      (runEveryTickLoop hd dt now items st).events
        = st.events ++ items.map (fun it => { func := it.func, src := none, dt := dt }))
    ∧ (∀ (hd : Handler) (ts : ℚ) (pending : List ℕ) (st st2 : TickState),
      runIntervalLoop hd ts pending st = .ok st2 →
      ∀ e ∈ st2.events, e ∈ st.events ∨ ∃ i ∈ pending, e.src = some i)
    ∧ (cascadeTick.bind fun r =>
        (tickView r.1 inertHandler 2).map fun r2 => countFires (.user 2) r2.2.2) = some 1
    ∧ (tickView ((Clock.init 0).schedule (.user 1)) cascadeHandler 1).map
        (fun r => countFires (.user 2) r.2.2) = some 1
    ∧ ((tickView ((Clock.init 0).schedule (.user 1))
          (fun f => if f = .user 1 then [.every (.user 1)] else []) 1).bind fun r =>
        (tickView r.1 (fun f => if f = .user 1 then [.every (.user 1)] else []) 2).map
          fun r2 => (countFires (.user 1) r.2.2, countFires (.user 1) r2.2.2)) = some (1, 2) := by
  refine ⟨runEveryTickLoop_events, runIntervalLoop_events_src,
    by with_unfolding_all decide, by with_unfolding_all decide,
    by with_unfolding_all decide⟩

/-- Witness for C1's quantified conjunct at a concrete loop run: the single
invocation of the one-entry loop carries a pending identity. -/
theorem claim1_witness :
    ({ func := .user 1, src := some 0, dt := 1 } : Event) ∈
      ([] : List Event)
    ∨ ∃ i ∈ [0], ({ func := .user 1, src := some 0, dt := 1 } : Event).src = some i :=
  claim1_snapshot_firing.2.1 inertHandler 1 [0]
    { clock :=
        { next_ts := 0, last_ts := none, times := [], cumulative_time := 0,
          window_size := 0, schedule_items := [], next_id := 1,
          schedule_interval_items :=
            [{ id := 0, func := .user 1, interval := 1, last_ts := 0, next_ts := some 1 }] },
      result := false,
      need_resort := false,
      events := [] }
    { clock :=
        { next_ts := 0, last_ts := none, times := [], cumulative_time := 0,
          window_size := 0, schedule_items := [], next_id := 1,
          schedule_interval_items :=
            [{ id := 0, func := .user 1, interval := 1, last_ts := 1, next_ts := some 2 }] },
      result := true,
      need_resort := true,
      events := [{ func := .user 1, src := some 0, dt := 1 }] }
    (by with_unfolding_all decide)
    { func := .user 1, src := some 0, dt := 1 }
    (by with_unfolding_all decide)

/-! ## C2: interval entries fire at most once per tick; fixed-step counts -/

/-- Number of invocations of the interval entry with identity `i` in an
event list. -/
def countSrc (evs : List Event) (i : ℕ) : ℕ :=
  (evs.filter (fun e => e.src == some i)).length

theorem countSrc_append (a b : List Event) (i : ℕ) :
    countSrc (a ++ b) i = countSrc a i + countSrc b i := by
  unfold countSrc
  rw [List.filter_append, List.length_append]

/-- One pass of the interval loop invokes each pending identity at most
once, whatever the callbacks do. -/
theorem runIntervalLoop_at_most_once (hd : Handler) (ts : ℚ) :
    ∀ (pending : List ℕ) (st st2 : TickState), pending.Nodup →
    runIntervalLoop hd ts pending st = .ok st2 →
    ∀ i, countSrc st2.events i ≤ countSrc st.events i + (if i ∈ pending then 1 else 0) := by
  intro pending
  induction pending with
  | nil =>
    intro st st2 _ hr i
    cases hr
    simp
  | cons j rest ih =>
    intro st st2 hnodup hr i
    have hjrest : j ∉ rest := (List.nodup_cons.mp hnodup).1
    have hrestnodup : rest.Nodup := (List.nodup_cons.mp hnodup).2
    have hifle : (if i ∈ rest then 1 else 0) ≤ (if i ∈ j :: rest then (1:ℕ) else 0) := by
      by_cases hir : i ∈ rest
      · simp [hir]
      · simp [hir]
    rcases hfd : findById st.clock.schedule_interval_items j with _ | it
    · rw [runIntervalLoop_cons_none hd ts j rest st hfd] at hr
      exact le_trans (ih st st2 hrestnodup hr i) (by omega)
    · have hitid : it.id = j := by simpa using List.find?_some hfd
      rcases hnts : it.next_ts with _ | nts
      · rw [runIntervalLoop_cons_error hd ts j rest st it hfd hnts] at hr
        cases hr
      · by_cases hdue : ts < nts
        · rw [runIntervalLoop_cons_break hd ts j rest st it nts hfd hnts hdue] at hr
          cases hr
          omega
        · have hfiredev : countSrc (firedState hd ts st it).events i
              = countSrc st.events i + (if j = i then 1 else 0) := by
            show countSrc (st.events ++ [{ func := it.func, src := some it.id, dt := ts - it.last_ts }]) i = _
            rw [countSrc_append]
            congr 1
            unfold countSrc
            by_cases hji : j = i
            · subst hji
              simp [hitid]
            · simp [List.filter_cons, hitid, hji]
          by_cases hival : it.interval ≠ 0
          · rw [runIntervalLoop_cons_due_interval hd ts j rest st it nts
              hfd hnts hdue hival] at hr
            have hstep := ih _ st2 hrestnodup hr i
            have he : countSrc ({ firedState hd ts st it with
                clock := (firedState hd ts st it).clock.serviceRearm ts it,
                need_resort := true } : TickState).events i
                = countSrc st.events i + (if j = i then 1 else 0) := hfiredev
            rw [he] at hstep
            by_cases hji : j = i
            · subst hji
              rw [if_pos rfl, if_neg hjrest] at hstep
              rw [if_pos (List.mem_cons_self j rest)]
              omega
            · rw [if_neg hji] at hstep
              omega
          · rw [runIntervalLoop_cons_due_oneshot hd ts j rest st it nts
              hfd hnts hdue hival] at hr
            have hstep := ih _ st2 hrestnodup hr i
            have he : countSrc ({ firedState hd ts st it with
                clock := { (firedState hd ts st it).clock with
                  schedule_interval_items :=
                    updateById (firedState hd ts st it).clock.schedule_interval_items
                      { it with next_ts := none } } } : TickState).events i
                = countSrc st.events i + (if j = i then 1 else 0) := hfiredev
            rw [he] at hstep
            by_cases hji : j = i
            · subst hji
              rw [if_pos rfl, if_neg hjrest] at hstep
              rw [if_pos (List.mem_cons_self j rest)]
              omega
            · rw [if_neg hji] at hstep
              omega

/-- Forward evaluation of a tick from a completed interval-loop run. -/
theorem tick_of_loop (c : Clock) (hd : Handler) (now : ℚ) (st2 : TickState)
    (hloop : runIntervalLoop hd now
      ((runEveryTickLoop hd (c.update_time now).2 now (c.update_time now).1.schedule_items
        { clock := (c.update_time now).1, result := false, need_resort := false,
          events := [] }).clock.schedule_interval_items.map (·.id))
      (runEveryTickLoop hd (c.update_time now).2 now (c.update_time now).1.schedule_items
        { clock := (c.update_time now).1, result := false, need_resort := false, events := [] })
      = .ok st2) :
    c.tick hd false now = .ok ((finishTick st2).1, (c.update_time now).2, st2.events) := by
  obtain ⟨-, hlast⟩ := update_time_fields c now
  have hcall : (c.update_time now).1.call_scheduled_functions hd now (c.update_time now).2
      = .ok (finishTick st2) := by
    show (match (c.update_time now).1.last_ts with
      | none =>
        match (runEveryTickLoop hd (c.update_time now).2 now (c.update_time now).1.schedule_items
          { clock := (c.update_time now).1, result := false, need_resort := false,
            events := [] }).clock.schedule_interval_items with
        | [] => Except.ok (finishTick (runEveryTickLoop hd (c.update_time now).2 now
            (c.update_time now).1.schedule_items
            { clock := (c.update_time now).1, result := false, need_resort := false,
              events := [] }))
        | _ :: _ => Except.error ()
      | some ts =>
        match runIntervalLoop hd ts
          ((runEveryTickLoop hd (c.update_time now).2 now (c.update_time now).1.schedule_items
            { clock := (c.update_time now).1, result := false, need_resort := false,
              events := [] }).clock.schedule_interval_items.map (·.id))
          (runEveryTickLoop hd (c.update_time now).2 now (c.update_time now).1.schedule_items
            { clock := (c.update_time now).1, result := false, need_resort := false,
              events := [] }) with
        | .error e => Except.error e
        | .ok stf => Except.ok (finishTick stf)) = Except.ok (finishTick st2)
    rw [hlast]
    show (match runIntervalLoop hd now
        ((runEveryTickLoop hd (c.update_time now).2 now (c.update_time now).1.schedule_items
          { clock := (c.update_time now).1, result := false, need_resort := false,
            events := [] }).clock.schedule_interval_items.map (·.id))
        (runEveryTickLoop hd (c.update_time now).2 now (c.update_time now).1.schedule_items
          { clock := (c.update_time now).1, result := false, need_resort := false,
            events := [] }) with
      | .error e => Except.error e
      | .ok stf => Except.ok (finishTick stf)) = Except.ok (finishTick st2)
    rw [hloop]
  show (if false = true then Except.error () else
    match (c.update_time now).1.call_scheduled_functions hd now (c.update_time now).2 with
    | .error e => Except.error e
    | .ok (c2, _, evs) => Except.ok (c2, (c.update_time now).2, evs)) = _
  rw [if_neg (by simp), hcall]
  rfl

/-- Inversion: a successful tick comes from a successful interval-loop run,
whose events are the tick's events. -/
theorem tick_inversion (c : Clock) (hd : Handler) (now : ℚ) (r : Clock × ℚ × List Event)
    (hr : c.tick hd false now = .ok r) :
    ∃ st2, runIntervalLoop hd now
      ((runEveryTickLoop hd (c.update_time now).2 now (c.update_time now).1.schedule_items
        { clock := (c.update_time now).1, result := false, need_resort := false,
          events := [] }).clock.schedule_interval_items.map (·.id))
      (runEveryTickLoop hd (c.update_time now).2 now (c.update_time now).1.schedule_items
        { clock := (c.update_time now).1, result := false, need_resort := false, events := [] })
      = .ok st2
    ∧ r = ((finishTick st2).1, (c.update_time now).2, st2.events) := by
  obtain ⟨-, hlast⟩ := update_time_fields c now
  rcases hloop : runIntervalLoop hd now
      ((runEveryTickLoop hd (c.update_time now).2 now (c.update_time now).1.schedule_items
        { clock := (c.update_time now).1, result := false, need_resort := false,
          events := [] }).clock.schedule_interval_items.map (·.id))
      (runEveryTickLoop hd (c.update_time now).2 now (c.update_time now).1.schedule_items
        { clock := (c.update_time now).1, result := false, need_resort := false, events := [] })
    with e | st2
  · exfalso
    have hcall : (c.update_time now).1.call_scheduled_functions hd now (c.update_time now).2
        = .error e := by
      show (match (c.update_time now).1.last_ts with
        | none =>
          match (runEveryTickLoop hd (c.update_time now).2 now (c.update_time now).1.schedule_items
            { clock := (c.update_time now).1, result := false, need_resort := false,
              events := [] }).clock.schedule_interval_items with
          | [] => Except.ok (finishTick (runEveryTickLoop hd (c.update_time now).2 now
              (c.update_time now).1.schedule_items
              { clock := (c.update_time now).1, result := false, need_resort := false,
                events := [] }))
          | _ :: _ => Except.error ()
        | some ts =>
          match runIntervalLoop hd ts
            ((runEveryTickLoop hd (c.update_time now).2 now (c.update_time now).1.schedule_items
              { clock := (c.update_time now).1, result := false, need_resort := false,
                events := [] }).clock.schedule_interval_items.map (·.id))
            (runEveryTickLoop hd (c.update_time now).2 now (c.update_time now).1.schedule_items
              { clock := (c.update_time now).1, result := false, need_resort := false,
                events := [] }) with
          | .error e => Except.error e
          | .ok stf => Except.ok (finishTick stf)) = Except.error e
      rw [hlast]
      show (match runIntervalLoop hd now
          ((runEveryTickLoop hd (c.update_time now).2 now (c.update_time now).1.schedule_items
            { clock := (c.update_time now).1, result := false, need_resort := false,
              events := [] }).clock.schedule_interval_items.map (·.id))
          (runEveryTickLoop hd (c.update_time now).2 now (c.update_time now).1.schedule_items
            { clock := (c.update_time now).1, result := false, need_resort := false,
              events := [] }) with
        | .error e => Except.error e
        | .ok stf => Except.ok (finishTick stf)) = Except.error e
      rw [hloop]
    have herr : c.tick hd false now = .error e := by
      show (if false = true then Except.error () else
        match (c.update_time now).1.call_scheduled_functions hd now (c.update_time now).2 with
        | .error e => Except.error e
        | .ok (c2, _, evs) => Except.ok (c2, (c.update_time now).2, evs)) = _
      rw [if_neg (by simp), hcall]
    rw [herr] at hr
    cases hr
  · have ht := tick_of_loop c hd now st2 hloop
    rw [ht] at hr
    injection hr with h
    exact ⟨st2, hloop, h.symm⟩

/-- Invocations recorded by the every-frame snapshot loop carry `src = none`,
so they never count toward an interval entry identity. -/
theorem countSrc_everyTick (hd : Handler) (dt now : ℚ) (items : List ScheduledItem)
    (st : TickState) (i : ℕ) :
    countSrc (runEveryTickLoop hd dt now items st).events i = countSrc st.events i := by
  rw [runEveryTickLoop_events, countSrc_append]
  have hz : ∀ l : List ScheduledItem,
      countSrc (l.map fun it => { func := it.func, src := none, dt := dt }) i = 0 := by
    intro l
    induction l with
    | nil => rfl
    | cons a rest ih =>
      rw [List.map_cons]
      unfold countSrc at ih ⊢
      rw [List.filter_cons, if_neg (by simp)]
      exact ih
  rw [hz]
  omega

/-- At-most-once per tick: a successful non-polling tick records at most one
invocation per interval-entry identity, however much time has elapsed. -/
theorem tick_at_most_once (c : Clock) (hd : Handler) (now : ℚ)
    (r : Clock × ℚ × List Event) (hinv : IdInv c)
    (hr : c.tick hd false now = .ok r) :
    ∀ i, countSrc r.2.2 i ≤ 1 := by
  intro i
  obtain ⟨st2, hloop, hre⟩ := tick_inversion c hd now r hr
  have hinv1 : IdInv (c.update_time now).1 := by
    refine IdInv_of_ids_eq ?_ ?_ hinv
    · rw [(update_time_sched c now).2]
    · exact (update_time_fields c now).1
  have hpres := runEveryTickLoop_pres hd (c.update_time now).2 now
    (c.update_time now).1.schedule_items
    { clock := (c.update_time now).1, result := false, need_resort := false, events := [] }
    hinv1
  have hbound := runIntervalLoop_at_most_once hd now _ _ st2 hpres.1.2 hloop i
  have hzero : countSrc (runEveryTickLoop hd (c.update_time now).2 now
      (c.update_time now).1.schedule_items
      { clock := (c.update_time now).1, result := false, need_resort := false,
        events := [] }).events i = 0 := by
    rw [countSrc_everyTick]
    rfl
  rw [hre]
  show countSrc st2.events i ≤ 1
  rw [hzero] at hbound
  exact le_trans hbound (by split <;> omega)

/-- The interval `cc * h` entry created by `schedule_interval` at `t = 0`,
after `q` completed firings: `last_ts` is the `q`-th firing time and
`next_ts` the `(q+1)`-th due time. -/
def c2Item (f : ℕ) (h : ℚ) (cc q : ℕ) : ScheduledIntervalItem :=
  { id := 0, func := .user f, interval := (cc : ℚ) * h,
    last_ts := (q : ℚ) * ((cc : ℚ) * h),
    next_ts := some (((q : ℚ) + 1) * ((cc : ℚ) * h)) }

/-- The clock obtained from `Clock.init 0`, `schedule_interval (user f)
(cc*h) 0`, and `k` fixed-step inert ticks at times `h, 2h, …, k*h`. -/
def c2State (f : ℕ) (h : ℚ) (cc k : ℕ) : Clock :=
  { next_ts := 0,
    last_ts := if k = 0 then none else some ((k : ℚ) * h),
    times := [], cumulative_time := 0, window_size := 0,
    schedule_items := [],
    schedule_interval_items := [c2Item f h cc (k / cc)],
    next_id := 1 }

theorem c2State_zero (f : ℕ) (h : ℚ) (cc : ℕ) :
    (Clock.init 0).schedule_interval (.user f) ((cc : ℚ) * h) 0 = c2State f h cc 0 := by
  have h1 : (Clock.init 0).schedule_interval (.user f) ((cc : ℚ) * h) 0
      = { next_ts := 0, last_ts := none, times := [], cumulative_time := 0, window_size := 0,
          schedule_items := [],
          schedule_interval_items :=
            [{ id := 0, func := .user f, interval := (cc : ℚ) * h,
               last_ts := 0, next_ts := some (0 + (cc : ℚ) * h) }],
          next_id := 1 } := by
    with_unfolding_all rfl
  rw [h1]
  unfold c2State c2Item
  rw [Nat.zero_div, if_pos rfl]
  rw [show ((0 : ℕ) : ℚ) * ((cc : ℚ) * h) = 0 from by push_cast; ring]
  rw [show (((0 : ℕ) : ℚ) + 1) * ((cc : ℚ) * h) = 0 + (cc : ℚ) * h from by push_cast; ring]

theorem c2_update_time (f : ℕ) (h : ℚ) (cc k : ℕ) :
    (c2State f h cc k).update_time (((k + 1 : ℕ) : ℚ) * h)
      = ({ c2State f h cc k with last_ts := some (((k + 1 : ℕ) : ℚ) * h) },
          if k = 0 then (0 : ℚ) else h) := by
  rcases k with _ | k0
  · rfl
  · rw [if_neg (Nat.succ_ne_zero k0)]
    show (({ c2State f h cc (k0 + 1) with
        times := [],
        cumulative_time := (0 - (((k0 + 1 + 1 : ℕ) : ℚ) * h - ((k0 + 1 : ℕ) : ℚ) * h))
          + (((k0 + 1 + 1 : ℕ) : ℚ) * h - ((k0 + 1 : ℕ) : ℚ) * h),
        last_ts := some (((k0 + 1 + 1 : ℕ) : ℚ) * h) } : Clock),
      ((k0 + 1 + 1 : ℕ) : ℚ) * h - ((k0 + 1 : ℕ) : ℚ) * h)
      = _
    rw [show (0 - ((((k0 + 1 + 1 : ℕ)) : ℚ) * h - ((k0 + 1 : ℕ) : ℚ) * h))
          + ((((k0 + 1 + 1 : ℕ)) : ℚ) * h - ((k0 + 1 : ℕ) : ℚ) * h) = 0 from by ring]
    rw [show (((k0 + 1 + 1 : ℕ)) : ℚ) * h - ((k0 + 1 : ℕ) : ℚ) * h = h from by
      push_cast
      ring]
    rfl


/-- One fixed-step tick against the `c2State` invariant: the interval entry
fires exactly when `cc` divides the tick index, and the state advances to
`c2State` at the next index. -/
theorem c2_tick_step (f : ℕ) (h : ℚ) (cc k : ℕ) (hh : 0 < h) (hcc : 2 ≤ cc) :
    (c2State f h cc k).tick inertHandler false (((k + 1 : ℕ) : ℚ) * h)
      = .ok (c2State f h cc (k + 1), (if k = 0 then (0 : ℚ) else h),
          if cc ∣ (k + 1)
            then [{ func := .user f, src := some 0, dt := (cc : ℚ) * h }]
            else ([] : List Event)) := by
  have h0cc : 0 < cc := by omega
  have hupd := c2_update_time f h cc k
  by_cases hdvd : cc ∣ (k + 1)
  · have hq1 : (k + 1) / cc = k / cc + 1 := by
      rw [Nat.succ_div, if_pos hdvd]
    have hk1 : k + 1 = (k / cc + 1) * cc := by
      rw [← hq1, Nat.div_mul_cancel hdvd]
    have h2 : ((k + 1 : ℕ) : ℚ) = (((k / cc : ℕ) : ℚ) + 1) * (cc : ℚ) := by
      rw [hk1]
      push_cast
      ring
    have hnow : ((k + 1 : ℕ) : ℚ) * h
        = ((k / cc : ℕ) : ℚ) * ((cc : ℚ) * h) + (cc : ℚ) * h := by
      linear_combination h * h2
    have hle : (c2Item f h cc (k / cc)).last_ts + (c2Item f h cc (k / cc)).interval
        ≤ ((k + 1 : ℕ) : ℚ) * h := by
      show ((k / cc : ℕ) : ℚ) * ((cc : ℚ) * h) + (cc : ℚ) * h ≤ ((k + 1 : ℕ) : ℚ) * h
      linarith [hnow]
    have hov : ((k + 1 : ℕ) : ℚ) * h
        - ((c2Item f h cc (k / cc)).last_ts + (c2Item f h cc (k / cc)).interval)
        < 1 / 20 := by
      show ((k + 1 : ℕ) : ℚ) * h
        - (((k / cc : ℕ) : ℚ) * ((cc : ℚ) * h) + (cc : ℚ) * h) < 1 / 20
      linarith [hnow]
    have hcast1 : ((k + 1 : ℕ) : ℚ) * h = ((k / cc + 1 : ℕ) : ℚ) * ((cc : ℚ) * h) := by
      have hnow2 := hnow
      push_cast at hnow2 ⊢
      linarith [hnow2]
    have hserv : ({ c2State f h cc k with
          last_ts := some (((k + 1 : ℕ) : ℚ) * h) } : Clock).serviceRearm
          (((k + 1 : ℕ) : ℚ) * h) (c2Item f h cc (k / cc))
        = { c2State f h cc k with
            last_ts := some (((k + 1 : ℕ) : ℚ) * h),
            schedule_interval_items := [c2Item f h cc (k / cc + 1)] } := by
      simp only [Clock.serviceRearm]
      rw [if_pos hle, if_pos hov]
      show ({ next_ts := 0, last_ts := some (((k + 1 : ℕ) : ℚ) * h), times := [],
              cumulative_time := 0, window_size := 0, schedule_items := [],
              schedule_interval_items :=
                [{ id := 0, func := .user f, interval := (cc : ℚ) * h,
                   last_ts := ((k + 1 : ℕ) : ℚ) * h,
                   next_ts := some (((k + 1 : ℕ) : ℚ) * h + (cc : ℚ) * h) }],
              next_id := 1 } : Clock) = _
      rw [hcast1]
      rw [show ((k / cc + 1 : ℕ) : ℚ) * ((cc : ℚ) * h) + (cc : ℚ) * h
          = (((k / cc + 1 : ℕ) : ℚ) + 1) * ((cc : ℚ) * h) from by ring]
      rfl
    have hloop0 : runIntervalLoop inertHandler (((k + 1 : ℕ) : ℚ) * h) [0]
        { clock := { c2State f h cc k with last_ts := some (((k + 1 : ℕ) : ℚ) * h) },
          result := false, need_resort := false, events := [] }
        = .ok
            { clock :=
                { c2State f h cc k with
                    last_ts := some (((k + 1 : ℕ) : ℚ) * h),
                    schedule_interval_items := [c2Item f h cc (k / cc + 1)] },
              result := true, need_resort := true,
              events :=
                [{ func := .user f, src := some 0,
                   dt := ((k + 1 : ℕ) : ℚ) * h - ((k / cc : ℕ) : ℚ) * ((cc : ℚ) * h) }] } := by
      rw [runIntervalLoop_cons_due_interval inertHandler (((k + 1 : ℕ) : ℚ) * h) 0 []
        { clock := { c2State f h cc k with last_ts := some (((k + 1 : ℕ) : ℚ) * h) },
          result := false, need_resort := false, events := [] }
        (c2Item f h cc (k / cc)) ((((k / cc : ℕ) : ℚ) + 1) * ((cc : ℚ) * h)) rfl rfl
        (by rw [not_lt]; linarith [hnow])
        (by
          show (cc : ℚ) * h ≠ 0
          exact mul_ne_zero (Nat.cast_ne_zero.mpr (by omega)) (ne_of_gt hh))]
      show Except.ok
          ({ clock :=
                ({ c2State f h cc k with
                    last_ts := some (((k + 1 : ℕ) : ℚ) * h) } : Clock).serviceRearm
                  (((k + 1 : ℕ) : ℚ) * h) (c2Item f h cc (k / cc)),
             result := true, need_resort := true,
             events :=
               [{ func := .user f, src := some 0,
                  dt := ((k + 1 : ℕ) : ℚ) * h
                    - ((k / cc : ℕ) : ℚ) * ((cc : ℚ) * h) }] } : TickState)
        = _
      rw [hserv]
    have hloop : runIntervalLoop inertHandler (((k + 1 : ℕ) : ℚ) * h)
        ((runEveryTickLoop inertHandler
          ((c2State f h cc k).update_time (((k + 1 : ℕ) : ℚ) * h)).2 (((k + 1 : ℕ) : ℚ) * h)
          ((c2State f h cc k).update_time (((k + 1 : ℕ) : ℚ) * h)).1.schedule_items
          { clock := ((c2State f h cc k).update_time (((k + 1 : ℕ) : ℚ) * h)).1,
            result := false, need_resort := false,
            events := [] }).clock.schedule_interval_items.map (·.id))
        (runEveryTickLoop inertHandler
          ((c2State f h cc k).update_time (((k + 1 : ℕ) : ℚ) * h)).2 (((k + 1 : ℕ) : ℚ) * h)
          ((c2State f h cc k).update_time (((k + 1 : ℕ) : ℚ) * h)).1.schedule_items
          { clock := ((c2State f h cc k).update_time (((k + 1 : ℕ) : ℚ) * h)).1,
            result := false, need_resort := false, events := [] })
        = .ok
            { clock :=
                { c2State f h cc k with
                    last_ts := some (((k + 1 : ℕ) : ℚ) * h),
                    schedule_interval_items := [c2Item f h cc (k / cc + 1)] },
              result := true, need_resort := true,
              events :=
                [{ func := .user f, src := some 0,
                   dt := ((k + 1 : ℕ) : ℚ) * h
                     - ((k / cc : ℕ) : ℚ) * ((cc : ℚ) * h) }] } := by
      rw [hupd]
      exact hloop0
    have ht := tick_of_loop (c2State f h cc k) inertHandler (((k + 1 : ℕ) : ℚ) * h) _ hloop
    have hrec : ({ c2State f h cc k with
          last_ts := some (((k + 1 : ℕ) : ℚ) * h),
          schedule_interval_items := [c2Item f h cc (k / cc + 1)] } : Clock)
        = c2State f h cc (k + 1) := by
      unfold c2State
      rw [hq1, if_neg (by omega : ¬ k + 1 = 0)]
    rw [ht, hupd, if_pos hdvd]
    show Except.ok
        (({ c2State f h cc k with
            last_ts := some (((k + 1 : ℕ) : ℚ) * h),
            schedule_interval_items := [c2Item f h cc (k / cc + 1)] } : Clock),
          (if k = 0 then (0 : ℚ) else h),
          [({ func := .user f, src := some 0,
              dt := ((k + 1 : ℕ) : ℚ) * h - ((k / cc : ℕ) : ℚ) * ((cc : ℚ) * h) } : Event)])
      = _
    rw [hrec, show ((k + 1 : ℕ) : ℚ) * h - ((k / cc : ℕ) : ℚ) * ((cc : ℚ) * h)
        = (cc : ℚ) * h from by linarith [hnow]]
  · have hq1 : (k + 1) / cc = k / cc := by
      rw [Nat.succ_div, if_neg hdvd, Nat.add_zero]
    have hmod' : k / cc * cc + k % cc = k := Nat.div_add_mod' k cc
    have hmlt : k % cc < cc := Nat.mod_lt k h0cc
    have hne : ¬ (k % cc + 1 = cc) := by
      intro he
      exact hdvd ⟨k / cc + 1, by rw [Nat.mul_comm, Nat.add_mul, Nat.one_mul]; omega⟩
    have hlt : k + 1 < (k / cc + 1) * cc := by
      rw [Nat.add_mul, Nat.one_mul]
      omega
    have hduelt : ((k + 1 : ℕ) : ℚ) * h < (((k / cc : ℕ) : ℚ) + 1) * ((cc : ℚ) * h) := by
      have hq : ((k + 1 : ℕ) : ℚ) < (((k / cc : ℕ) : ℚ) + 1) * (cc : ℚ) := by
        exact_mod_cast hlt
      calc ((k + 1 : ℕ) : ℚ) * h < (((k / cc : ℕ) : ℚ) + 1) * (cc : ℚ) * h :=
            mul_lt_mul_of_pos_right hq hh
        _ = (((k / cc : ℕ) : ℚ) + 1) * ((cc : ℚ) * h) := by ring
    have hloop0 : runIntervalLoop inertHandler (((k + 1 : ℕ) : ℚ) * h) [0]
        { clock := { c2State f h cc k with last_ts := some (((k + 1 : ℕ) : ℚ) * h) },
          result := false, need_resort := false, events := [] }
        = .ok
            { clock := { c2State f h cc k with last_ts := some (((k + 1 : ℕ) : ℚ) * h) },
              result := false, need_resort := false, events := [] } :=
      runIntervalLoop_cons_break inertHandler (((k + 1 : ℕ) : ℚ) * h) 0 []
        { clock := { c2State f h cc k with last_ts := some (((k + 1 : ℕ) : ℚ) * h) },
          result := false, need_resort := false, events := [] }
        (c2Item f h cc (k / cc)) ((((k / cc : ℕ) : ℚ) + 1) * ((cc : ℚ) * h)) rfl rfl hduelt
    have hloop : runIntervalLoop inertHandler (((k + 1 : ℕ) : ℚ) * h)
        ((runEveryTickLoop inertHandler
          ((c2State f h cc k).update_time (((k + 1 : ℕ) : ℚ) * h)).2 (((k + 1 : ℕ) : ℚ) * h)
          ((c2State f h cc k).update_time (((k + 1 : ℕ) : ℚ) * h)).1.schedule_items
          { clock := ((c2State f h cc k).update_time (((k + 1 : ℕ) : ℚ) * h)).1,
            result := false, need_resort := false,
            events := [] }).clock.schedule_interval_items.map (·.id))
        (runEveryTickLoop inertHandler
          ((c2State f h cc k).update_time (((k + 1 : ℕ) : ℚ) * h)).2 (((k + 1 : ℕ) : ℚ) * h)
          ((c2State f h cc k).update_time (((k + 1 : ℕ) : ℚ) * h)).1.schedule_items
          { clock := ((c2State f h cc k).update_time (((k + 1 : ℕ) : ℚ) * h)).1,
            result := false, need_resort := false, events := [] })
        = .ok
            { clock := { c2State f h cc k with last_ts := some (((k + 1 : ℕ) : ℚ) * h) },
              result := false, need_resort := false, events := [] } := by
      rw [hupd]
      exact hloop0
    have ht := tick_of_loop (c2State f h cc k) inertHandler (((k + 1 : ℕ) : ℚ) * h) _ hloop
    have hrec : ({ c2State f h cc k with
          last_ts := some (((k + 1 : ℕ) : ℚ) * h),
          schedule_interval_items := [c2Item f h cc (k / cc)] } : Clock)
        = c2State f h cc (k + 1) := by
      unfold c2State
      rw [hq1, if_neg (by omega : ¬ k + 1 = 0)]
    rw [ht, hupd, if_neg hdvd]
    show Except.ok
        (({ c2State f h cc k with
            last_ts := some (((k + 1 : ℕ) : ℚ) * h),
            schedule_interval_items := [c2Item f h cc (k / cc)] } : Clock),
          (if k = 0 then (0 : ℚ) else h), ([] : List Event))
      = _
    rw [hrec]

/-- Driving `c2State` by `n` further fixed-step ticks yields one recorded
firing per multiple of `cc` among the tick indices. -/
theorem c2_run (f : ℕ) (h : ℚ) (cc : ℕ) (hh : 0 < h) (hcc : 2 ≤ cc) :
    ∀ (n k : ℕ), runTicksFrom inertHandler h k n (c2State f h cc k)
      = .ok (c2State f h cc (k + n),
          List.replicate ((k + n) / cc - k / cc)
            { func := .user f, src := some 0, dt := (cc : ℚ) * h }) := by
  intro n
  induction n with
  | zero =>
    intro k
    show Except.ok (c2State f h cc k, ([] : List Event))
      = Except.ok (c2State f h cc k, List.replicate (k / cc - k / cc)
          { func := .user f, src := some 0, dt := (cc : ℚ) * h })
    rw [Nat.sub_self]
    rfl
  | succ n ih =>
    intro k
    show (match (c2State f h cc k).tick inertHandler false (((k + 1 : ℕ) : ℚ) * h) with
      | .error e => (Except.error e : Except Unit (Clock × List Event))
      | .ok (c1, _, evs) =>
        match runTicksFrom inertHandler h (k + 1) n c1 with
        | .error e => .error e
        | .ok (c2, evs2) => .ok (c2, evs ++ evs2)) = _
    rw [c2_tick_step f h cc k hh hcc]
    show (match runTicksFrom inertHandler h (k + 1) n (c2State f h cc (k + 1)) with
      | .error e => (Except.error e : Except Unit (Clock × List Event))
      | .ok (c2, evs2) =>
          .ok (c2, (if cc ∣ (k + 1)
            then [({ func := .user f, src := some 0, dt := (cc : ℚ) * h } : Event)]
            else ([] : List Event)) ++ evs2)) = _
    rw [ih (k + 1)]
    show Except.ok (c2State f h cc (k + 1 + n),
        (if cc ∣ (k + 1)
          then [({ func := .user f, src := some 0, dt := (cc : ℚ) * h } : Event)]
          else ([] : List Event))
        ++ List.replicate ((k + 1 + n) / cc - (k + 1) / cc)
            ({ func := .user f, src := some 0, dt := (cc : ℚ) * h } : Event)) = _
    have hkn : k + 1 + n = k + (n + 1) := by omega
    rw [hkn]
    have hmono : (k + 1) / cc ≤ (k + (n + 1)) / cc :=
      Nat.div_le_div_right (by omega)
    by_cases hdvd : cc ∣ (k + 1)
    · rw [if_pos hdvd]
      have hq1 : (k + 1) / cc = k / cc + 1 := by
        rw [Nat.succ_div, if_pos hdvd]
      rw [List.singleton_append, ← List.replicate_succ]
      rw [show (k + (n + 1)) / cc - (k + 1) / cc + 1 = (k + (n + 1)) / cc - k / cc from by
        omega]
    · rw [if_neg hdvd]
      have hq1 : (k + 1) / cc = k / cc := by
        rw [Nat.succ_div, if_neg hdvd, Nat.add_zero]
      rw [List.nil_append, hq1]

/-- C2 (corrected): each interval entry fires at most once per `tick()` call
(for every reachable clock, callback behavior and time sample).  The exact
count `floor(T / I)` over a fixed-step run holds in the amended form: when
the step `h` divides the interval (`I = cc * h`, `cc ≥ 2`, so `h < I`), `N`
ticks covering `T = N * h` fire the callback exactly `N / cc = floor(T / I)`
times.  For steps not dividing the interval the code fires fewer than
`floor(T / I)` times (see the counterexample), because a small-overshoot
re-arm sets `next_ts = T + I`, drifting the phase by the overshoot. -/
theorem claim2_interval_rate :
    (∀ (c : Clock) (hd : Handler) (now : ℚ) (r : Clock × ℚ × List Event),
        IdInv c → c.tick hd false now = .ok r → ∀ i, countSrc r.2.2 i ≤ 1)
    ∧ (∀ (f : ℕ) (h : ℚ) (cc N : ℕ), 0 < h → 2 ≤ cc →
        runTicksFrom inertHandler h 0 N
            ((Clock.init 0).schedule_interval (.user f) ((cc : ℚ) * h) 0)
          = .ok (c2State f h cc N,
              List.replicate (N / cc)
                { func := .user f, src := some 0, dt := (cc : ℚ) * h })
        ∧ N / cc = ⌊((N : ℚ) * h) / ((cc : ℚ) * h)⌋₊) := by
  constructor
  · exact tick_at_most_once
  · intro f h cc N hh hcc
    constructor
    · rw [c2State_zero f h cc]
      have hr := c2_run f h cc hh hcc N 0
      rw [Nat.zero_add, Nat.zero_div, Nat.sub_zero] at hr
      exact hr
    · rw [mul_div_mul_right _ _ (ne_of_gt hh), Nat.floor_div_nat, Nat.floor_natCast]


/-- C2 counterexample to the spec's exact-count sentence: with interval
`I = 1` and fixed step `h = 3/5 < I`, ten ticks cover elapsed time `T = 6`
and `floor(T / I) = 6`, yet the callback fires only 5 times: each
small-overshoot re-arm sets `next_ts = T + I`, drifting the firing phase by
the overshoot instead of staying on the original grid. -/
theorem claim2_counterexample :
    (runTicksFrom inertHandler (3/5) 0 10
        ((Clock.init 0).schedule_interval (.user 0) 1 0)).map
        (fun p => countFires (.user 0) p.2) = .ok 5
    ∧ ⌊((10 : ℚ) * (3/5)) / 1⌋₊ = 6 := by
  constructor
  · with_unfolding_all decide
  · with_unfolding_all decide

/-- Witness for C2 at concrete inputs: the at-most-once bound on the tick of
`c2State 0 1 2 1` at `t = 2` (which fires once), and the exact-count run
`N = 4`, `h = 1`, `cc = 2` firing `4 / 2 = floor(4 * 1 / 2)` times. -/
theorem claim2_witness :
    IdInv (c2State 0 1 2 1)
    ∧ (c2State 0 1 2 1).tick inertHandler false 2
        = .ok (c2State 0 1 2 2, (1 : ℚ), [{ func := .user 0, src := some 0, dt := 2 }])
    ∧ countSrc [({ func := .user 0, src := some 0, dt := 2 } : Event)] 0 ≤ 1
    ∧ (0 : ℚ) < 1 ∧ 2 ≤ 2
    ∧ runTicksFrom inertHandler 1 0 4
        ((Clock.init 0).schedule_interval (.user 0) (((2 : ℕ) : ℚ) * 1) 0)
      = .ok (c2State 0 1 2 4,
          List.replicate (4 / 2) { func := .user 0, src := some 0, dt := ((2 : ℕ) : ℚ) * 1 })
    ∧ (4 : ℕ) / 2 = ⌊((4 : ℕ) : ℚ) * 1 / (((2 : ℕ) : ℚ) * 1)⌋₊ := by
  refine ⟨by unfold IdInv; with_unfolding_all decide, by with_unfolding_all decide,
    ?_, by norm_num, by norm_num, ?_, ?_⟩
  · exact claim2_interval_rate.1 (c2State 0 1 2 1) inertHandler 2
      (c2State 0 1 2 2, (1 : ℚ), [{ func := .user 0, src := some 0, dt := 2 }])
      (by unfold IdInv; with_unfolding_all decide) (by with_unfolding_all decide) 0
  · exact (claim2_interval_rate.2 0 1 2 4 (by norm_num) (by norm_num)).1
  · exact (claim2_interval_rate.2 0 1 2 4 (by norm_num) (by norm_num)).2


/-- Affine rescaling of a queue entry: times `t ↦ b + t * v`, intervals
`i ↦ i * v`.  The soft scheduler at basis `b` and interval `v` runs exactly
as at basis `0` and interval `1` with everything rescaled (`v > 0`). -/
def scaleItem (b v : ℚ) (it : ScheduledIntervalItem) : ScheduledIntervalItem :=
  { id := it.id, func := it.func, interval := it.interval * v,
    last_ts := b + it.last_ts * v,
    next_ts := it.next_ts.map (fun t => b + t * v) }

theorem taken_map (b v : ℚ) (hv : 0 < v) :
    ∀ (items : List ScheduledIntervalItem) (ts e : ℚ),
    taken (items.map (scaleItem b v)) (b + ts * v) (e * v) = taken items ts e := by
  intro items
  induction items with
  | nil => intro ts e; rfl
  | cons it rest ih =>
    intro ts e
    rcases hn : it.next_ts with _ | o
    · simp only [List.map_cons, taken, scaleItem, hn, Option.map_none']
      exact ih ts e
    · simp only [List.map_cons, taken, scaleItem, hn, Option.map_some']
      have h1 : |b + o * v - (b + ts * v)| ≤ e * v ↔ |o - ts| ≤ e := by
        rw [show b + o * v - (b + ts * v) = (o - ts) * v from by ring, abs_mul,
          abs_of_pos hv, mul_le_mul_right hv]
      have h2 : b + o * v > b + ts * v + e * v ↔ o > ts + e := by
        rw [gt_iff_lt, gt_iff_lt,
          show b + ts * v + e * v = b + (ts + e) * v from by ring,
          add_lt_add_iff_left, mul_lt_mul_right hv]
      by_cases hc1 : |o - ts| ≤ e
      · rw [if_pos (h1.mpr hc1), if_pos hc1]
      · rw [if_neg (fun hx => hc1 (h1.mp hx)), if_neg hc1]
        by_cases hc2 : o > ts + e
        · rw [if_pos (h2.mpr hc2), if_pos hc2]
        · rw [if_neg (fun hx => hc2 (h2.mp hx)), if_neg hc2]
          exact ih ts e

theorem probeFrom_map (b v : ℚ) (hv : 0 < v) (items : List ScheduledIntervalItem) (dt : ℚ) :
    ∀ (count : ℕ) (cur : ℚ),
    probeFrom (items.map (scaleItem b v)) (dt * v) count (b + cur * v)
      = (probeFrom items dt count cur).map (fun t => b + t * v) := by
  intro count
  induction count with
  | zero => intro cur; rfl
  | succ count ih =>
    intro cur
    show (if taken (items.map (scaleItem b v)) (b + cur * v + dt * v) (dt * v / 4) = false
        then some (b + cur * v + dt * v)
        else probeFrom (items.map (scaleItem b v)) (dt * v) count (b + cur * v + dt * v))
      = Option.map (fun t => b + t * v)
          (if taken items (cur + dt) (dt / 4) = false then some (cur + dt)
           else probeFrom items dt count (cur + dt))
    rw [show b + cur * v + dt * v = b + (cur + dt) * v from by ring,
      show dt * v / 4 = dt / 4 * v from by ring,
      taken_map b v hv items (cur + dt) (dt / 4)]
    by_cases hb : taken items (cur + dt) (dt / 4) = false
    · rw [if_pos hb, if_pos hb, Option.map_some']
    · rw [if_neg hb, if_neg hb]
      exact ih (cur + dt)

theorem softLoop_map (b v : ℚ) (hv : 0 < v) (items : List ScheduledIntervalItem) (lts : ℚ) :
    ∀ (fuel : ℕ) (dt : ℚ) (divs : ℕ) (prev : ℚ),
    softLoop (items.map (scaleItem b v)) (b + lts * v) fuel (dt * v) divs (b + prev * v)
      = b + softLoop items lts fuel dt divs prev * v := by
  intro fuel
  induction fuel with
  | zero => intro dt divs prev; rfl
  | succ fuel ih =>
    intro dt divs prev
    show (match probeFrom (items.map (scaleItem b v)) (dt * v) (divs - 1) (b + lts * v) with
      | some c => c
      | none =>
        if 16 < divs * 2 then b + lts * v + ((divs - 1 : ℕ) : ℚ) * (dt * v)
        else softLoop (items.map (scaleItem b v)) (b + lts * v) fuel (dt * v / 2) (divs * 2)
          (b + lts * v + ((divs - 1 : ℕ) : ℚ) * (dt * v)))
      = b + (match probeFrom items dt (divs - 1) lts with
        | some c => c
        | none =>
          if 16 < divs * 2 then lts + ((divs - 1 : ℕ) : ℚ) * dt
          else softLoop items lts fuel (dt / 2) (divs * 2)
            (lts + ((divs - 1 : ℕ) : ℚ) * dt)) * v
    rw [probeFrom_map b v hv items dt (divs - 1) lts]
    rcases hp : probeFrom items dt (divs - 1) lts with _ | c
    · rw [Option.map_none']
      show (if 16 < divs * 2 then b + lts * v + ((divs - 1 : ℕ) : ℚ) * (dt * v)
          else softLoop (items.map (scaleItem b v)) (b + lts * v) fuel (dt * v / 2) (divs * 2)
            (b + lts * v + ((divs - 1 : ℕ) : ℚ) * (dt * v)))
        = b + (if 16 < divs * 2 then lts + ((divs - 1 : ℕ) : ℚ) * dt
            else softLoop items lts fuel (dt / 2) (divs * 2)
              (lts + ((divs - 1 : ℕ) : ℚ) * dt)) * v
      rw [show b + lts * v + ((divs - 1 : ℕ) : ℚ) * (dt * v)
            = b + (lts + ((divs - 1 : ℕ) : ℚ) * dt) * v from by ring,
        show dt * v / 2 = dt / 2 * v from by ring]
      by_cases hg : 16 < divs * 2
      · rw [if_pos hg, if_pos hg]
      · rw [if_neg hg, if_neg hg]
        exact ih (dt / 2) (divs * 2) (lts + ((divs - 1 : ℕ) : ℚ) * dt)
    · rw [Option.map_some']

theorem get_soft_next_ts_map (b v : ℚ) (hv : 0 < v) (c cs : Clock)
    (hit : cs.schedule_interval_items = c.schedule_interval_items.map (scaleItem b v))
    (lts ival : ℚ) (lts2 i2 : ℚ) (hl : lts2 = b + lts * v) (hi : i2 = ival * v) :
    cs.get_soft_next_ts lts2 i2 = b + c.get_soft_next_ts lts ival * v := by
  subst hl hi
  simp only [Clock.get_soft_next_ts]
  rw [hit]
  rw [show b + lts * v + ival * v = b + (lts + ival) * v from by ring,
    show ival * v / 4 = ival / 4 * v from by ring,
    taken_map b v hv c.schedule_interval_items (lts + ival) (ival / 4)]
  by_cases ht : taken c.schedule_interval_items (lts + ival) (ival / 4) = false
  · rw [if_pos ht, if_pos ht]
  · rw [if_neg ht, if_neg ht]
    exact softLoop_map b v hv c.schedule_interval_items lts 6 ival 1 (lts + ival)

theorem scaleItem_next_ts (b v : ℚ) (it : ScheduledIntervalItem) :
    (scaleItem b v it).next_ts = it.next_ts.map (fun t => b + t * v) := rfl

theorem scheduleItemInsert_map (b v : ℚ) (hv : 0 < v) (nts : ℚ)
    (it it2 : ScheduledIntervalItem) (hit2 : it2 = scaleItem b v it)
    (nts2 : ℚ) (hnts2 : nts2 = b + nts * v) :
    ∀ l, scheduleItemInsert nts2 it2 (l.map (scaleItem b v))
      = (scheduleItemInsert nts it l).map (scaleItem b v) := by
  subst hit2 hnts2
  intro l
  induction l with
  | nil => rfl
  | cons other rest ih =>
    rcases ho : other.next_ts with _ | o
    · simp only [List.map_cons, scheduleItemInsert, scaleItem_next_ts, ho, Option.map_none']
      rw [ih]
    · simp only [List.map_cons, scheduleItemInsert, scaleItem_next_ts, ho, Option.map_some']
      have h1 : b + nts * v < b + o * v ↔ nts < o := by
        rw [add_lt_add_iff_left, mul_lt_mul_right hv]
      by_cases hc : nts < o
      · rw [if_pos (h1.mpr hc), if_pos hc]
        rw [List.map_cons, List.map_cons]
      · rw [if_neg (fun hx => hc (h1.mp hx)), if_neg hc, ih]
        rw [List.map_cons]


/-- The scaling invariant of repeated `schedule_interval_soft` calls at the
creation basis: the state at basis `b`, interval `v` is the state at basis
`0`, interval `1` with every entry rescaled. -/
theorem softStateN_map (b v : ℚ) (hv : 0 < v) :
    ∀ n, (softStateN b v n).schedule_interval_items
        = (softStateN 0 1 n).schedule_interval_items.map (scaleItem b v)
      ∧ (softStateN b v n).next_id = (softStateN 0 1 n).next_id
      ∧ (softStateN b v n).last_ts = none
      ∧ (softStateN 0 1 n).last_ts = none
      ∧ (softStateN b v n).next_ts = b
      ∧ (softStateN 0 1 n).next_ts = 0
      ∧ (∀ it ∈ (softStateN 0 1 n).schedule_interval_items, it.next_ts.isSome) := by
  intro n
  induction n with
  | zero => exact ⟨rfl, rfl, rfl, rfl, rfl, rfl, by intro it hmem; cases hmem⟩
  | succ n ih =>
    obtain ⟨hit, hnid, hlb, hl0, hnb, hn0, hsome⟩ := ih
    have hnear_b : (softStateN b v n).nearestTs = b := by
      simp only [Clock.nearestTs, hlb, hnb]
    have hnear_0 : (softStateN 0 1 n).nearestTs = 0 := by
      simp only [Clock.nearestTs, hl0, hn0]
    have hsoft : (softStateN b v n).get_soft_next_ts b v
        = b + (softStateN 0 1 n).get_soft_next_ts 0 1 * v :=
      get_soft_next_ts_map b v hv (softStateN 0 1 n) (softStateN b v n) hit 0 1 b v
        (by ring) (by ring)
    have hstep_b : softStateN b v (n + 1)
        = (softStateN b v n).schedule_item (.user n)
            ((softStateN b v n).get_soft_next_ts b v - v)
            ((softStateN b v n).get_soft_next_ts b v) v := by
      show (softStateN b v n).schedule_interval_soft (.user n) v b = _
      simp only [Clock.schedule_interval_soft]
      rw [hnear_b, if_neg (by norm_num : ¬ (b - b > (1:ℚ)/5))]
    have hstep_0 : softStateN 0 1 (n + 1)
        = (softStateN 0 1 n).schedule_item (.user n)
            ((softStateN 0 1 n).get_soft_next_ts 0 1 - 1)
            ((softStateN 0 1 n).get_soft_next_ts 0 1) 1 := by
      show (softStateN 0 1 n).schedule_interval_soft (.user n) 1 0 = _
      simp only [Clock.schedule_interval_soft]
      rw [hnear_0, if_neg (by norm_num : ¬ ((0:ℚ) - 0 > (1:ℚ)/5))]
    refine ⟨?_, ?_, ?_, ?_, ?_, ?_, ?_⟩
    · rw [hstep_b, hstep_0]
      show scheduleItemInsert ((softStateN b v n).get_soft_next_ts b v)
          { id := (softStateN b v n).next_id, func := Func.user n, interval := v,
            last_ts := (softStateN b v n).get_soft_next_ts b v - v,
            next_ts := some ((softStateN b v n).get_soft_next_ts b v) }
          (softStateN b v n).schedule_interval_items
        = List.map (scaleItem b v)
            (scheduleItemInsert ((softStateN 0 1 n).get_soft_next_ts 0 1)
              { id := (softStateN 0 1 n).next_id, func := Func.user n, interval := 1,
                last_ts := (softStateN 0 1 n).get_soft_next_ts 0 1 - 1,
                next_ts := some ((softStateN 0 1 n).get_soft_next_ts 0 1) }
              (softStateN 0 1 n).schedule_interval_items)
      rw [hit]
      refine scheduleItemInsert_map b v hv ((softStateN 0 1 n).get_soft_next_ts 0 1) _ _ ?_ _ ?_
        (softStateN 0 1 n).schedule_interval_items
      · show ({ id := (softStateN b v n).next_id, func := Func.user n, interval := v,
                last_ts := (softStateN b v n).get_soft_next_ts b v - v,
                next_ts := some ((softStateN b v n).get_soft_next_ts b v) } : ScheduledIntervalItem)
          = scaleItem b v
              { id := (softStateN 0 1 n).next_id, func := Func.user n, interval := 1,
                last_ts := (softStateN 0 1 n).get_soft_next_ts 0 1 - 1,
                next_ts := some ((softStateN 0 1 n).get_soft_next_ts 0 1) }
        have hgoal : ∀ (i : ℕ) (g : ℚ),
            ({ id := i, func := Func.user n, interval := v,
               last_ts := b + g * v - v,
               next_ts := some (b + g * v) } : ScheduledIntervalItem)
            = scaleItem b v
                { id := i, func := Func.user n, interval := 1,
                  last_ts := g - 1, next_ts := some g } := by
          intro i g
          unfold scaleItem
          show _ = ({ id := i, func := Func.user n, interval := 1 * v,
                      last_ts := b + (g - 1) * v,
                      next_ts := some (b + g * v) } : ScheduledIntervalItem)
          congr 1
          · ring
          · ring
        rw [hsoft, hnid]
        exact hgoal ((softStateN 0 1 n).next_id) ((softStateN 0 1 n).get_soft_next_ts 0 1)
      · exact hsoft
    · rw [hstep_b, hstep_0]
      show (softStateN b v n).next_id + 1 = (softStateN 0 1 n).next_id + 1
      rw [hnid]
    · rw [hstep_b]
      exact hlb
    · rw [hstep_0]
      exact hl0
    · rw [hstep_b]
      exact hnb
    · rw [hstep_0]
      exact hn0
    · rw [hstep_0]
      intro it hmem
      show it.next_ts.isSome
      have hmem2 : it ∈ scheduleItemInsert ((softStateN 0 1 n).get_soft_next_ts 0 1)
          { id := (softStateN 0 1 n).next_id, func := Func.user n, interval := 1,
            last_ts := (softStateN 0 1 n).get_soft_next_ts 0 1 - 1,
            next_ts := some ((softStateN 0 1 n).get_soft_next_ts 0 1) }
          (softStateN 0 1 n).schedule_interval_items := hmem
      rw [(scheduleItemInsert_perm _ _ _).mem_iff] at hmem2
      rcases List.mem_cons.mp hmem2 with h | h
      · rw [h]
        rfl
      · exact hsome it h

/-- The values produced at basis `b`, interval `v` are the affine rescalings
of the values produced at basis `0`, interval `1`. -/
theorem softNextList_map (b v : ℚ) (hv : 0 < v) (n : ℕ) :
    softNextList b v n = (softNextList 0 1 n).map (fun t => b + t * v) := by
  obtain ⟨hit, -, -, -, -, -, hsome⟩ := softStateN_map b v hv n
  unfold softNextList
  rw [hit, List.map_map, List.map_map]
  refine List.map_congr_left ?_
  intro it hmem
  show ((scaleItem b v it).next_ts).getD 0 = b + (it.next_ts.getD 0) * v
  rcases hs : it.next_ts with _ | t
  · exact absurd (hsome it hmem) (by rw [hs]; simp)
  · show ((it.next_ts.map fun s => b + s * v).getD 0) = b + ((some t).getD 0) * v
    rw [hs]
    rfl

/-- The soft slots at basis `0`, interval `1`, for every entry count up to
16: pairwise distinct, inside `[0, 1]`, pairwise at least `1 / (4 N)`
apart (decided by evaluating the scheduler). -/
theorem softNextList_base : ∀ N : ℕ, N < 17 →
    (softNextList 0 1 N).Pairwise (· ≠ ·)
    ∧ (∀ x ∈ softNextList 0 1 N, 0 ≤ x ∧ x ≤ 1)
    ∧ (softNextList 0 1 N).Pairwise (fun x y => 1 / (4 * (N : ℚ)) ≤ |x - y|) := by
  with_unfolding_all decide


/-- C4 (corrected): for `1 ≤ N ≤ 16` `schedule_interval_soft` calls sharing
interval `I > 0` and anchored at the same basis `b` (no ticks in between),
the produced `next_ts` values are pairwise distinct, lie within
`[b, b + I]`, and are pairwise separated by at least
`I / (4 * 2 ^ ⌈log₂ N⌉)`.  The claim's unrestricted `N` is wrong: at
`N = 17` distinctness already fails (see the counterexample) because the
17th call exhausts the `divs > 16` subdivision guard and returns the
already-taken slot `b + (15/16) I`. -/
theorem claim4_soft_spacing (b v : ℚ) (hv : 0 < v) (N : ℕ) (h1 : 1 ≤ N) (h16 : N ≤ 16) :
    (softNextList b v N).Pairwise (· ≠ ·)
    ∧ (∀ x ∈ softNextList b v N, b ≤ x ∧ x ≤ b + v)
    ∧ (softNextList b v N).Pairwise
        (fun x y => v / (4 * 2 ^ Nat.clog 2 N) ≤ |x - y|) := by
  obtain ⟨hd, hrange, hsep⟩ := softNextList_base N (by omega)
  have hN1 : (1 : ℚ) ≤ (N : ℚ) := by exact_mod_cast h1
  have hpow : (N : ℚ) ≤ 2 ^ Nat.clog 2 N := by
    exact_mod_cast Nat.le_pow_clog (by norm_num) N
  have hN0 : (0 : ℚ) < 4 * (N : ℚ) := by linarith
  have hP0 : (0 : ℚ) < 4 * 2 ^ Nat.clog 2 N := by positivity
  have htol : v / (4 * 2 ^ Nat.clog 2 N) ≤ v / (4 * (N : ℚ)) := by
    rw [div_le_div_iff hP0 hN0]
    exact mul_le_mul_of_nonneg_left (by linarith) (le_of_lt hv)
  rw [softNextList_map b v hv N]
  refine ⟨?_, ?_, ?_⟩
  · rw [List.pairwise_map]
    exact hd.imp (fun {x y} hxy heq =>
      hxy (mul_right_cancel₀ (ne_of_gt hv) (by linarith [heq])))
  · intro z hz
    rcases List.mem_map.mp hz with ⟨t, ht, rfl⟩
    obtain ⟨ht0, ht1⟩ := hrange t ht
    have hm0 : 0 ≤ t * v := mul_nonneg ht0 (le_of_lt hv)
    have hm1 : t * v ≤ 1 * v := mul_le_mul_of_nonneg_right ht1 (le_of_lt hv)
    constructor
    · linarith
    · linarith
  · rw [List.pairwise_map]
    refine hsep.imp ?_
    intro x y hxy
    have habs : |(b + x * v) - (b + y * v)| = |x - y| * v := by
      rw [show (b + x * v) - (b + y * v) = (x - y) * v from by ring, abs_mul,
        abs_of_pos hv]
    rw [habs]
    calc v / (4 * 2 ^ Nat.clog 2 N) ≤ v / (4 * (N : ℚ)) := htol
      _ = (1 / (4 * (N : ℚ))) * v := by ring
      _ ≤ |x - y| * v := mul_le_mul_of_nonneg_right hxy (le_of_lt hv)

/-- C4 counterexample at `N = 17`, `I = 1`, basis `0`: the seventeen
`next_ts` values are not pairwise distinct - the slot `15/16` is produced
twice, because the 17th call's probe loop gives up through the `divs > 16`
guard and returns its last candidate even though that slot is taken. -/
theorem claim4_counterexample :
    (0 : ℚ) < 1 ∧ 1 ≤ 17
    ∧ ¬ (softNextList 0 1 17).Pairwise (· ≠ ·)
    ∧ (softNextList 0 1 17).count (15/16 : ℚ) = 2 := by
  refine ⟨by norm_num, by norm_num, ?_, by with_unfolding_all decide⟩
  with_unfolding_all decide

/-- Witness for C4 at `b = 5`, `I = 2`, `N = 3`. -/
theorem claim4_witness :
    (0 : ℚ) < 2 ∧ 1 ≤ 3 ∧ 3 ≤ 16
    ∧ ((softNextList 5 2 3).Pairwise (· ≠ ·)
      ∧ (∀ x ∈ softNextList 5 2 3, 5 ≤ x ∧ x ≤ 5 + 2)
      ∧ (softNextList 5 2 3).Pairwise
          (fun x y => 2 / (4 * 2 ^ Nat.clog 2 3) ≤ |x - y|)) :=
  ⟨by norm_num, by norm_num, by norm_num,
    claim4_soft_spacing 5 2 (by norm_num) 3 (by norm_num) (by norm_num)⟩


end PygletClock
